import Mathlib

/-!
Verification of the go-inmem-cache engine (src/cache.go).

The Go code is shallowly embedded as follows:
- real time is a logical clock: every public operation takes a `now : Int`
  parameter standing for the single `time.Now()` instant of that call;
  `time.Duration` TTL values are `Int`.
- the `map[K]*cacheItem` store is an association list with unique keys
  (uniqueness is an invariant, proved, not assumed by the embedding);
- the doubly-linked recency list with head/tail sentinels is a `List K`
  ordered oldest-first (append at tail = add before the tail sentinel);
- the expiration min-heap (`container/heap` over `expirationHeap`) is a
  `List (ExpEntry K)` indexed positionally; the `index` field that Go keeps
  inside each entry is recovered as the entry's position, and entry object
  identity (Go pointers) is modelled by a unique `eid` tag so that the
  `expirationMap` can point at one specific heap entry;
- `*V` values are `Option V` (nil = `none`); the reflection-based
  `fastCalculateItemSize` is an abstract per-cache function `calcKV`
  together with the zero value `vzero` used for nil values, both fixed at
  construction like the cached type information in `New`.
-/

namespace GoCache

variable {K V : Type} [DecidableEq K]

/-- An entry of the expiration min-heap (`expirationEntry` in cache.go).
`eid` models Go pointer identity of the entry object; the `index` field is
the entry's current position in the queue list. -/
structure ExpEntry (K : Type) where
  key : K
  expireTime : Int
  eid : Nat
deriving DecidableEq, Repr

/-- A stored cache entry (`cacheItem` in cache.go); the `Node` back-pointer
is implicit because each key has exactly one recency node. -/
structure CacheItem (V : Type) where
  value : Option V
  ttl : Option Int
  createdAt : Int
  size : Nat
deriving DecidableEq, Repr

/-- The cache state (`cache` struct in cache.go). `size`/`maxItems` are the
optional configured bounds; `calcKV`/`vzero` model the construction-time
cached size information used by `fastCalculateItemSize`. -/
structure Cache (K V : Type) where
  size : Option Int
  maxItems : Option Int
  sizeBytes : Int
  list : List K
  items : List (K × CacheItem V)
  expirationQueue : List (ExpEntry K)
  expirationMap : List (K × Nat)
  nextEid : Nat
  calcKV : K → V → Nat
  vzero : V

/-- The `Config` struct. -/
structure Config where
  size : Option Int
  maxItems : Option Int

/-- Association-list lookup, modelling Go map read. -/
def assocFind? : List (K × α) → K → Option α
  | [], _ => none
  | (a, b) :: rest, k => if a = k then some b else assocFind? rest k

/-- Association-list deletion, modelling Go map `delete`. -/
def assocErase : List (K × α) → K → List (K × α)
  | [], _ => []
  | (a, b) :: rest, k => if a = k then rest else (a, b) :: assocErase rest k

/-- Association-list in-place update of an existing binding. -/
def assocReplace : List (K × α) → K → α → List (K × α)
  | [], _, _ => []
  | (a, b) :: rest, k, c => if a = k then (a, c) :: rest else (a, b) :: assocReplace rest k c

/-- Association-list write, modelling Go map assignment (update or add). -/
def assocSet : List (K × α) → K → α → List (K × α)
  | [], k, c => [(k, c)]
  | (a, b) :: rest, k, c => if a = k then (a, c) :: rest else (a, b) :: assocSet rest k c

/-- Removal of the first occurrence of an element from a list, modelling
`removeNode` on the unique node holding that key. -/
def listErase : List K → K → List K
  | [], _ => []
  | a :: rest, k => if a = k then rest else a :: listErase rest k

/-- Expiry time at a heap position (total with a dummy default; all callers
stay in bounds exactly as the Go code does). -/
def entryTimeAt (l : List (ExpEntry K)) (i : Nat) : Int :=
  match l[i]? with
  | some e => e.expireTime
  | none => 0

/-- `expirationHeap.Less i j`: `expireTime i` strictly before `expireTime j`. -/
def heapLess (l : List (ExpEntry K)) (i j : Nat) : Bool :=
  decide (entryTimeAt l i < entryTimeAt l j)

/-- `expirationHeap.Swap`. -/
def heapSwap (l : List (ExpEntry K)) (i j : Nat) : List (ExpEntry K) :=
  match l[i]?, l[j]? with
  | some a, some b => (l.set i b).set j a
  | _, _ => l

/-- `container/heap` sift-up (`up`), with fuel for termination; the fuel is
always at least the queue length, which bounds the number of swaps. -/
def siftUp : Nat → List (ExpEntry K) → Nat → List (ExpEntry K)
  | 0, l, _ => l
  | fuel + 1, l, j =>
    if j = 0 then l
    else
      let i := (j - 1) / 2
      if heapLess l j i then siftUp fuel (heapSwap l i j) i else l

/-- `container/heap` sift-down (`down`) below boundary `n`; returns the
final position so that callers can test whether the element moved. -/
def siftDown : Nat → List (ExpEntry K) → Nat → Nat → List (ExpEntry K) × Nat
  | 0, l, i, _ => (l, i)
  | fuel + 1, l, i, n =>
    let j1 := 2 * i + 1
    if n ≤ j1 then (l, i)
    else
      let j := if j1 + 1 < n && heapLess l (j1 + 1) j1 then j1 + 1 else j1
      if heapLess l j i then siftDown fuel (heapSwap l i j) j n else (l, i)

/-- `heap.Push`: append then sift up from the last position. -/
def heapPush (l : List (ExpEntry K)) (e : ExpEntry K) : List (ExpEntry K) :=
  let l1 := l ++ [e]
  siftUp l1.length l1 (l1.length - 1)

/-- `heap.Pop`: swap root with last, sift down within the shrunk boundary,
then drop the last slot (which holds the old root). -/
def heapPopRoot (l : List (ExpEntry K)) : List (ExpEntry K) :=
  match l with
  | [] => []
  | _ :: _ =>
    let n := l.length - 1
    let l1 := heapSwap l 0 n
    let l2 := (siftDown l1.length l1 0 n).1
    l2.take n

/-- `heap.Remove` at position `i`: swap with last, sift down, sift up if the
element did not move down, then drop the last slot. -/
def heapRemoveAt (l : List (ExpEntry K)) (i : Nat) : List (ExpEntry K) :=
  if i < l.length then
    let n := l.length - 1
    if n = i then l.take n
    else
      let l1 := heapSwap l i n
      let p := siftDown l1.length l1 i n
      let l3 := if p.2 = i then siftUp p.1.length p.1 i else p.1
      l3.take n
  else l

/-- `isItemValid`: no TTL never expires; otherwise `time.Since(CreatedAt) < TTL`. -/
def isItemValid (it : CacheItem V) (now : Int) : Bool :=
  match it.ttl with
  | none => true
  | some t => decide (now - it.createdAt < t)

/-- `addExpirationEntry`: push a fresh entry and record it in the key index. -/
def addExpirationEntry (s : Cache K V) (k : K) (expireTime : Int) : Cache K V :=
  { s with
    expirationQueue := heapPush s.expirationQueue ⟨k, expireTime, s.nextEid⟩
    expirationMap := assocSet s.expirationMap k s.nextEid
    nextEid := s.nextEid + 1 }

/-- Position of the heap entry the expiration map points at (Go reads the
entry's stored `index`; a popped entry has index -1 and is found nowhere). -/
def findEntryIdx? (l : List (ExpEntry K)) (eid : Nat) : Option Nat :=
  l.findIdx? (fun e => e.eid == eid)

/-- `removeExpirationEntry`: if the map holds an entry for the key, remove
that heap element when its index is still in range, and delete the map slot. -/
def removeExpirationEntry (s : Cache K V) (k : K) : Cache K V :=
  match assocFind? s.expirationMap k with
  | none => s
  | some eid =>
    { s with
      expirationQueue :=
        match findEntryIdx? s.expirationQueue eid with
        | some i => heapRemoveAt s.expirationQueue i
        | none => s.expirationQueue
      expirationMap := assocErase s.expirationMap k }

/-- `removeItemByKey`: drop the item, its recency node, its tracked size and
its expiration entry. -/
def removeItemByKey (s : Cache K V) (k : K) : Cache K V :=
  match assocFind? s.items k with
  | none => s
  | some it =>
    removeExpirationEntry
      { s with
        sizeBytes := s.sizeBytes - it.size
        items := assocErase s.items k
        list := listErase s.list k } k

/-- `removeOldestItem`: detach the head node (`removeHead`), then remove the
item stored under its key. -/
def removeOldestItem (s : Cache K V) : Cache K V :=
  match s.list with
  | [] => s
  | a :: t => removeItemByKey { s with list := t } a

/-- `updateOrAddItem`: update in place and move the node to the tail, or add
a new node at the tail. -/
def updateOrAddItem (s : Cache K V) (k : K) (it : CacheItem V) : Cache K V :=
  match assocFind? s.items k with
  | some _ =>
    { s with
      items := assocReplace s.items k it
      list := listErase s.list k ++ [k] }
  | none =>
    { s with
      items := s.items ++ [(k, it)]
      list := s.list ++ [k] }

/-- Eviction condition for the add path of `setItem`:
`(size set ∧ sizeBytes + itemSize > size) ∨ (maxItems set ∧ len items ≥ maxItems)`. -/
def overForAdd (s : Cache K V) (itemSize : Nat) : Bool :=
  (match s.size with
   | some cap => decide (cap < s.sizeBytes + itemSize)
   | none => false)
  || (match s.maxItems with
      | some m => decide (m ≤ (s.items.length : Int))
      | none => false)

/-- Eviction condition for the update path of `setItem`; the projected total
replaces the old size of the updated item with the new one. -/
def overForUpdate (s : Cache K V) (oldSize itemSize : Nat) : Bool :=
  (match s.size with
   | some cap => decide (cap < s.sizeBytes - oldSize + itemSize)
   | none => false)
  || (match s.maxItems with
      | some m => decide (m ≤ (s.items.length : Int))
      | none => false)

/-- The eviction loop of the add path: while over a bound, stop on an empty
cache, otherwise evict the oldest item. Fuel bounds the iterations; callers
pass `items.length + 1`, which the loop can never exhaust. -/
def evictForAdd : Nat → Cache K V → Nat → Cache K V
  | 0, s, _ => s
  | fuel + 1, s, itemSize =>
    if overForAdd s itemSize then
      match s.list with
      | [] => s
      | _ :: _ => evictForAdd fuel (removeOldestItem s) itemSize
    else s

/-- The eviction loop of the update path: while over a bound, stop when at
most one node remains; evict the second-oldest when the oldest is the key
being updated, otherwise the oldest. -/
def evictForUpdate : Nat → Cache K V → K → Nat → Nat → Cache K V
  | 0, s, _, _, _ => s
  | fuel + 1, s, k, oldSize, itemSize =>
    if overForUpdate s oldSize itemSize then
      if s.list.length ≤ 1 then s
      else
        evictForUpdate fuel
          (match s.list with
           | k0 :: k1 :: _ => if k0 = k then removeItemByKey s k1 else removeOldestItem s
           | _ => removeOldestItem s)
          k oldSize itemSize
    else s

/-- The size `setItem` computes for the entry: the cached calculation on the
value, or on the zero value when the value pointer is nil. -/
def itemSizeOf (s : Cache K V) (k : K) (v : Option V) : Nat :=
  match v with
  | some w => s.calcKV k w
  | none => s.calcKV k s.vzero

/-- `setItem`: run the appropriate eviction loop, commit the new tracked
size, insert/update the entry, then manage the expiration queue — a positive
TTL enqueues an expiration entry, a zero/negative TTL removes the item
immediately. -/
def setItem (s : Cache K V) (now : Int) (k : K) (v : Option V) (ttl : Option Int) :
    Cache K V :=
  let itemSize := itemSizeOf s k v
  let s2 : Cache K V :=
    match assocFind? s.items k with
    | some existing =>
      let s1 := evictForUpdate (s.items.length + 1) s k existing.size itemSize
      { s1 with sizeBytes := s1.sizeBytes - existing.size + itemSize }
    | none =>
      let s1 := evictForAdd (s.items.length + 1) s itemSize
      { s1 with sizeBytes := s1.sizeBytes + itemSize }
  let s3 := updateOrAddItem s2 k ⟨v, ttl, now, itemSize⟩
  match ttl with
  | none => s3
  | some t => if 0 < t then addExpirationEntry s3 k (now + t) else removeItemByKey s3 k

/-- Public `Set`: store with no TTL. -/
def Set (s : Cache K V) (now : Int) (k : K) (v : Option V) : Cache K V :=
  setItem s now k v none

/-- Public `SetWithTTL`: store, then remove any existing expiration entry
for the key, then enqueue a fresh one when the TTL is positive. -/
def SetWithTTL (s : Cache K V) (now : Int) (k : K) (v : Option V) (ttl : Int) :
    Cache K V :=
  let s1 := setItem s now k v (some ttl)
  let s2 := removeExpirationEntry s1 k
  if 0 < ttl then addExpirationEntry s2 k (now + ttl) else s2

/-- Public `Get`: the stored value and `true` when present and valid,
`(nil, false)` otherwise. -/
def Get (s : Cache K V) (now : Int) (k : K) : Option V × Bool :=
  match assocFind? s.items k with
  | some it => if isItemValid it now then (it.value, true) else (none, false)
  | none => (none, false)

/-- Public `Delete`; its Go body is identical, line for line, to
`removeItemByKey` under the lock. -/
def Delete (s : Cache K V) (k : K) : Cache K V :=
  removeItemByKey s k

/-- Public `Len`: the number of entries of the store map. -/
def Len (s : Cache K V) : Nat :=
  s.items.length

/-- Public `Clear`: fresh maps and queue, zero size, reset list. -/
def Clear (s : Cache K V) : Cache K V :=
  { s with items := [], expirationMap := [], expirationQueue := [], sizeBytes := 0,
           list := [] }

/-- One pass of `cleanupExpiredItems`: while the heap root has expired, pop
it, delete the key's map slot, and remove the item when it still exists and
is itself expired. Fuel is the queue length plus one; every iteration pops
one entry. -/
def cleanupLoop : Nat → Cache K V → Int → Cache K V
  | 0, s, _ => s
  | fuel + 1, s, now =>
    match s.expirationQueue with
    | [] => s
    | e :: _ =>
      if now < e.expireTime then s
      else
        let s1 := { s with
          expirationQueue := heapPopRoot s.expirationQueue
          expirationMap := assocErase s.expirationMap e.key }
        cleanupLoop fuel
          (match assocFind? s1.items e.key with
           | some it => if isItemValid it now then s1 else removeItemByKey s1 e.key
           | none => s1)
          now

/-- `cleanupExpiredItems`, the body shared by the periodic sweeper and the
manual trigger. -/
def cleanupExpiredItems (s : Cache K V) (now : Int) : Cache K V :=
  cleanupLoop (s.expirationQueue.length + 1) s now

/-- Public `CleanupExpired` simply calls `cleanupExpiredItems`. Note that in
cache.go it returns nothing (`CleanupExpired()` in the interface). -/
def CleanupExpired (s : Cache K V) (now : Int) : Cache K V :=
  cleanupExpiredItems s now

/-- `New`: a nil configuration pointer is replaced by `&Config{}`; both
bounds are copied and every structure starts empty. -/
def New (config : Option Config) (calcKV : K → V → Nat) (vzero : V) : Cache K V :=
  let cfg : Config := match config with
    | none => ⟨none, none⟩
    | some c => c
  { size := cfg.size, maxItems := cfg.maxItems, sizeBytes := 0, list := [], items := [],
    expirationQueue := [], expirationMap := [], nextEid := 0,
    calcKV := calcKV, vzero := vzero }

/-! ### Association-list and list-erase lemmas -/

theorem assocFind?_isSome_iff (l : List (K × α)) (k : K) :
    (assocFind? l k).isSome ↔ k ∈ l.map Prod.fst := by
  induction l with
  | nil => simp [assocFind?]
  | cons p rest ih =>
    obtain ⟨a, b⟩ := p
    by_cases h : a = k
    · subst h
      simp [assocFind?]
    · simp only [assocFind?, h, if_false, List.map_cons, List.mem_cons, ih]
      exact ⟨Or.inr, fun hm => hm.resolve_left fun he => h he.symm⟩

theorem assocFind?_append_none {l m : List (K × α)} {k : K}
    (h : assocFind? l k = none) : assocFind? (l ++ m) k = assocFind? m k := by
  induction l with
  | nil => simp
  | cons p rest ih =>
    obtain ⟨a, b⟩ := p
    by_cases hak : a = k
    · simp [assocFind?, hak] at h
    · simp only [assocFind?, hak, if_false, List.cons_append] at h ⊢
      exact ih h

theorem assocFind?_append_some {l m : List (K × α)} {k : K} {b : α}
    (h : assocFind? l k = some b) : assocFind? (l ++ m) k = some b := by
  induction l with
  | nil => simp [assocFind?] at h
  | cons p rest ih =>
    obtain ⟨a, c⟩ := p
    by_cases hak : a = k <;>
      simp only [assocFind?, hak, if_true, if_false, List.cons_append] at h ⊢
    · exact h
    · exact ih h

theorem assocFind?_singleton_self (k : K) (b : α) :
    assocFind? [(k, b)] k = some b := by
  simp [assocFind?]

theorem assocFind?_singleton_ne {k k' : K} (h : k' ≠ k) (b : α) :
    assocFind? [(k, b)] k' = none := by
  simp [assocFind?, Ne.symm h]

theorem assocFind?_replace_self {l : List (K × α)} {k : K} {b : α}
    (h : assocFind? l k = some b) (c : α) :
    assocFind? (assocReplace l k c) k = some c := by
  induction l with
  | nil => simp [assocFind?] at h
  | cons p rest ih =>
    obtain ⟨a, d⟩ := p
    by_cases hak : a = k
    · simp [assocFind?, assocReplace, hak]
    · simp only [assocFind?, assocReplace, hak, if_false] at h ⊢
      exact ih h

theorem assocFind?_replace_ne {l : List (K × α)} {k k' : K} (h : k' ≠ k) (c : α) :
    assocFind? (assocReplace l k c) k' = assocFind? l k' := by
  induction l with
  | nil => simp [assocReplace]
  | cons p rest ih =>
    obtain ⟨a, d⟩ := p
    by_cases hak : a = k
    · subst hak
      have hk' : ¬ a = k' := fun hh => h hh.symm
      simp [assocFind?, assocReplace, hk']
    · simp [assocFind?, assocReplace, hak, ih]

theorem assocFind?_erase_ne {l : List (K × α)} {k k' : K} (h : k' ≠ k) :
    assocFind? (assocErase l k) k' = assocFind? l k' := by
  induction l with
  | nil => simp [assocErase]
  | cons p rest ih =>
    obtain ⟨a, d⟩ := p
    by_cases hak : a = k
    · subst hak
      have hk' : ¬ a = k' := fun hh => h hh.symm
      simp [assocFind?, assocErase, hk']
    · simp [assocFind?, assocErase, hak, ih]

theorem assocErase_of_find?_none {l : List (K × α)} {k : K}
    (h : assocFind? l k = none) : assocErase l k = l := by
  induction l with
  | nil => rfl
  | cons p rest ih =>
    obtain ⟨a, d⟩ := p
    by_cases hak : a = k <;>
      simp only [assocFind?, hak, if_true, if_false] at h
    · cases h
    · simp [assocErase, hak, ih h]

theorem keys_assocReplace (l : List (K × α)) (k : K) (c : α) :
    (assocReplace l k c).map Prod.fst = l.map Prod.fst := by
  induction l with
  | nil => rfl
  | cons p rest ih =>
    obtain ⟨a, d⟩ := p
    by_cases hak : a = k <;> simp [assocReplace, hak, ih]

theorem length_assocReplace (l : List (K × α)) (k : K) (c : α) :
    (assocReplace l k c).length = l.length := by
  induction l with
  | nil => rfl
  | cons p rest ih =>
    obtain ⟨a, d⟩ := p
    by_cases hak : a = k <;> simp [assocReplace, hak, ih]

theorem keys_assocErase (l : List (K × α)) (k : K) :
    (assocErase l k).map Prod.fst = listErase (l.map Prod.fst) k := by
  induction l with
  | nil => rfl
  | cons p rest ih =>
    obtain ⟨a, d⟩ := p
    by_cases hak : a = k <;> simp [assocErase, listErase, hak, ih]

theorem length_assocErase_of_some {l : List (K × α)} {k : K} {b : α}
    (h : assocFind? l k = some b) : (assocErase l k).length + 1 = l.length := by
  induction l with
  | nil => simp [assocFind?] at h
  | cons p rest ih =>
    obtain ⟨a, d⟩ := p
    by_cases hak : a = k
    · simp [assocErase, hak]
    · simp only [assocFind?, hak, if_false] at h
      simp [assocErase, hak, ih h]

theorem mem_listErase_of_ne {l : List K} {k k' : K} (h : k' ≠ k) :
    k' ∈ listErase l k ↔ k' ∈ l := by
  induction l with
  | nil => simp [listErase]
  | cons a rest ih =>
    by_cases hak : a = k
    · subst hak
      simp only [listErase, if_pos rfl, List.mem_cons]
      exact ⟨Or.inr, fun hm => hm.resolve_left h⟩
    · simp [listErase, hak, ih]

theorem listErase_of_not_mem {l : List K} {k : K} (h : k ∉ l) : listErase l k = l := by
  induction l with
  | nil => rfl
  | cons a rest ih =>
    simp only [List.mem_cons, not_or] at h
    have hka : ¬ a = k := fun hh => h.1 hh.symm
    simp [listErase, hka, ih h.2]

theorem listErase_cons_self (k : K) (t : List K) : listErase (k :: t) k = t := by
  simp [listErase]

theorem listErase_sublist (l : List K) (k : K) : (listErase l k).Sublist l := by
  induction l with
  | nil => simp [listErase]
  | cons a rest ih =>
    by_cases hak : a = k
    · simpa [listErase, hak] using List.sublist_cons_self a rest
    · simpa [listErase, hak] using ih.cons₂ a

theorem nodup_listErase {l : List K} (h : l.Nodup) (k : K) : (listErase l k).Nodup :=
  (listErase_sublist l k).nodup h

theorem not_mem_listErase_self {l : List K} (h : l.Nodup) (k : K) :
    k ∉ listErase l k := by
  induction l with
  | nil => simp [listErase]
  | cons a rest ih =>
    rcases List.nodup_cons.mp h with ⟨ha, hrest⟩
    by_cases hak : a = k
    · subst hak
      simpa [listErase] using ha
    · simp only [listErase, hak, if_false, List.mem_cons, not_or]
      exact ⟨fun hh => hak hh.symm, ih hrest⟩

theorem length_listErase_of_mem {l : List K} {k : K} (h : k ∈ l) :
    (listErase l k).length + 1 = l.length := by
  induction l with
  | nil => simp at h
  | cons a rest ih =>
    by_cases hak : a = k
    · simp [listErase, hak]
    · have hk : k ∈ rest := by
        rcases List.mem_cons.mp h with hh | hh
        · exact absurd hh.symm hak
        · exact hh
      simp [listErase, hak, ih hk]

theorem assocFind?_erase_self_of_nodup {l : List (K × α)}
    (h : (l.map Prod.fst).Nodup) (k : K) : assocFind? (assocErase l k) k = none := by
  have hmem : k ∉ (assocErase l k).map Prod.fst := by
    rw [keys_assocErase]
    exact not_mem_listErase_self h k
  rcases hs : assocFind? (assocErase l k) k with _ | b
  · rfl
  · exact absurd ((assocFind?_isSome_iff _ _).mp (by simp [hs])) hmem

/-! ### Sum of stored sizes -/

/-- The sum of the computed sizes of all stored entries. -/
def sumSizes (l : List (K × CacheItem V)) : Nat :=
  (l.map fun p => p.2.size).sum

theorem sumSizes_append (l m : List (K × CacheItem V)) :
    sumSizes (l ++ m) = sumSizes l + sumSizes m := by
  simp [sumSizes]

theorem sumSizes_erase {l : List (K × CacheItem V)} {k : K} {it : CacheItem V}
    (h : assocFind? l k = some it) :
    (sumSizes l : Int) = sumSizes (assocErase l k) + it.size := by
  induction l with
  | nil => simp [assocFind?] at h
  | cons p rest ih =>
    obtain ⟨a, d⟩ := p
    by_cases hak : a = k <;>
      simp only [assocFind?, hak, if_true, if_false] at h
    · cases h
      simp [sumSizes, assocErase, hak]
      ring
    · have := ih h
      simp only [sumSizes, assocErase, hak, if_false, List.map_cons, List.sum_cons] at this ⊢
      push_cast at this ⊢
      omega

theorem sumSizes_replace {l : List (K × CacheItem V)} {k : K} {old : CacheItem V}
    (h : assocFind? l k = some old) (c : CacheItem V) :
    (sumSizes (assocReplace l k c) : Int) = sumSizes l - old.size + c.size := by
  induction l with
  | nil => simp [assocFind?] at h
  | cons p rest ih =>
    obtain ⟨a, d⟩ := p
    by_cases hak : a = k <;>
      simp only [assocFind?, hak, if_true, if_false] at h
    · cases h
      simp [sumSizes, assocReplace, hak]
      ring
    · have := ih h
      simp only [sumSizes, assocReplace, hak, if_false, List.map_cons, List.sum_cons] at this ⊢
      push_cast at this ⊢
      omega

/-! ### Projection lemmas: the expiration-queue operations leave the store,
the recency list, the tracked size and the configuration untouched -/

@[simp] theorem items_addExpirationEntry (s : Cache K V) (k : K) (t : Int) :
    (addExpirationEntry s k t).items = s.items := rfl

@[simp] theorem list_addExpirationEntry (s : Cache K V) (k : K) (t : Int) :
    (addExpirationEntry s k t).list = s.list := rfl

@[simp] theorem sizeBytes_addExpirationEntry (s : Cache K V) (k : K) (t : Int) :
    (addExpirationEntry s k t).sizeBytes = s.sizeBytes := rfl

@[simp] theorem size_addExpirationEntry (s : Cache K V) (k : K) (t : Int) :
    (addExpirationEntry s k t).size = s.size := rfl

@[simp] theorem maxItems_addExpirationEntry (s : Cache K V) (k : K) (t : Int) :
    (addExpirationEntry s k t).maxItems = s.maxItems := rfl

@[simp] theorem calcKV_addExpirationEntry (s : Cache K V) (k : K) (t : Int) :
    (addExpirationEntry s k t).calcKV = s.calcKV := rfl

@[simp] theorem vzero_addExpirationEntry (s : Cache K V) (k : K) (t : Int) :
    (addExpirationEntry s k t).vzero = s.vzero := rfl

@[simp] theorem items_removeExpirationEntry (s : Cache K V) (k : K) :
    (removeExpirationEntry s k).items = s.items := by
  cases h : assocFind? s.expirationMap k <;> simp [removeExpirationEntry, h]

@[simp] theorem list_removeExpirationEntry (s : Cache K V) (k : K) :
    (removeExpirationEntry s k).list = s.list := by
  cases h : assocFind? s.expirationMap k <;> simp [removeExpirationEntry, h]

@[simp] theorem sizeBytes_removeExpirationEntry (s : Cache K V) (k : K) :
    (removeExpirationEntry s k).sizeBytes = s.sizeBytes := by
  cases h : assocFind? s.expirationMap k <;> simp [removeExpirationEntry, h]

@[simp] theorem size_removeExpirationEntry (s : Cache K V) (k : K) :
    (removeExpirationEntry s k).size = s.size := by
  cases h : assocFind? s.expirationMap k <;> simp [removeExpirationEntry, h]

@[simp] theorem maxItems_removeExpirationEntry (s : Cache K V) (k : K) :
    (removeExpirationEntry s k).maxItems = s.maxItems := by
  cases h : assocFind? s.expirationMap k <;> simp [removeExpirationEntry, h]

@[simp] theorem calcKV_removeExpirationEntry (s : Cache K V) (k : K) :
    (removeExpirationEntry s k).calcKV = s.calcKV := by
  cases h : assocFind? s.expirationMap k <;> simp [removeExpirationEntry, h]

@[simp] theorem vzero_removeExpirationEntry (s : Cache K V) (k : K) :
    (removeExpirationEntry s k).vzero = s.vzero := by
  cases h : assocFind? s.expirationMap k <;> simp [removeExpirationEntry, h]

/-! ### Characterization of item removal -/

theorem removeItemByKey_of_none {s : Cache K V} {k : K}
    (h : assocFind? s.items k = none) : removeItemByKey s k = s := by
  simp [removeItemByKey, h]

theorem items_removeItemByKey_of_some {s : Cache K V} {k : K} {it : CacheItem V}
    (h : assocFind? s.items k = some it) :
    (removeItemByKey s k).items = assocErase s.items k := by
  simp [removeItemByKey, h]

theorem list_removeItemByKey_of_some {s : Cache K V} {k : K} {it : CacheItem V}
    (h : assocFind? s.items k = some it) :
    (removeItemByKey s k).list = listErase s.list k := by
  simp [removeItemByKey, h]

theorem sizeBytes_removeItemByKey_of_some {s : Cache K V} {k : K} {it : CacheItem V}
    (h : assocFind? s.items k = some it) :
    (removeItemByKey s k).sizeBytes = s.sizeBytes - it.size := by
  simp [removeItemByKey, h]

theorem find?_removeItemByKey_ne {s : Cache K V} {j k : K} (h : j ≠ k) :
    assocFind? (removeItemByKey s k).items j = assocFind? s.items j := by
  cases h' : assocFind? s.items k with
  | none => rw [removeItemByKey_of_none h']
  | some it => rw [items_removeItemByKey_of_some h', assocFind?_erase_ne h]

theorem find?_removeItemByKey_absent {s : Cache K V} {j : K} (k : K)
    (h : assocFind? s.items j = none) :
    assocFind? (removeItemByKey s k).items j = none := by
  by_cases hjk : j = k
  · subst hjk
    rw [removeItemByKey_of_none h]
    exact h
  · rw [find?_removeItemByKey_ne hjk]
    exact h

theorem sizeBytes_removeItemByKey_le (s : Cache K V) (k : K) :
    (removeItemByKey s k).sizeBytes ≤ s.sizeBytes := by
  cases h : assocFind? s.items k with
  | none => rw [removeItemByKey_of_none h]
  | some it =>
    rw [sizeBytes_removeItemByKey_of_some h]
    have : (0 : Int) ≤ it.size := Int.ofNat_nonneg it.size
    omega

/-! ### Configuration preservation -/

/-- Two states with the same configured bounds and the same cached size
information. -/
def SameCfg (a b : Cache K V) : Prop :=
  a.size = b.size ∧ a.maxItems = b.maxItems ∧ a.calcKV = b.calcKV ∧ a.vzero = b.vzero

theorem sameCfg_refl (a : Cache K V) : SameCfg a a :=
  ⟨rfl, rfl, rfl, rfl⟩

theorem sameCfg_trans {a b c : Cache K V} (h1 : SameCfg a b) (h2 : SameCfg b c) :
    SameCfg a c :=
  ⟨h1.1.trans h2.1, h1.2.1.trans h2.2.1, h1.2.2.1.trans h2.2.2.1, h1.2.2.2.trans h2.2.2.2⟩

theorem sameCfg_removeItemByKey (s : Cache K V) (k : K) :
    SameCfg (removeItemByKey s k) s := by
  cases h : assocFind? s.items k with
  | none => rw [removeItemByKey_of_none h]; exact sameCfg_refl s
  | some it => simp [removeItemByKey, h, SameCfg]

theorem sameCfg_removeOldestItem (s : Cache K V) :
    SameCfg (removeOldestItem s) s := by
  cases h : s.list with
  | nil => simp [removeOldestItem, h]; exact sameCfg_refl s
  | cons a t =>
    have := sameCfg_removeItemByKey { s with list := t } a
    simpa [removeOldestItem, h, SameCfg] using this

theorem sameCfg_evictForAdd (fuel : Nat) (s : Cache K V) (n : Nat) :
    SameCfg (evictForAdd fuel s n) s := by
  induction fuel generalizing s with
  | zero => exact sameCfg_refl s
  | succ f ih =>
    rw [evictForAdd]
    by_cases h : overForAdd s n
    · simp only [h, if_true]
      cases hl : s.list with
      | nil => exact sameCfg_refl s
      | cons a t => exact sameCfg_trans (ih _) (sameCfg_removeOldestItem s)
    · simp only [h, if_false]
      exact sameCfg_refl s

theorem sameCfg_evictForUpdate (fuel : Nat) (s : Cache K V) (k : K) (o n : Nat) :
    SameCfg (evictForUpdate fuel s k o n) s := by
  induction fuel generalizing s with
  | zero => exact sameCfg_refl s
  | succ f ih =>
    rw [evictForUpdate]
    by_cases h : overForUpdate s o n
    · simp only [h, if_true]
      by_cases hlen : s.list.length ≤ 1
      · simp only [hlen, if_true]
        exact sameCfg_refl s
      · simp only [hlen, if_false]
        cases hl : s.list with
        | nil => exact sameCfg_trans (ih _) (sameCfg_removeOldestItem s)
        | cons a t =>
          cases t with
          | nil => exact sameCfg_trans (ih _) (sameCfg_removeOldestItem s)
          | cons b t2 =>
            by_cases hak : a = k
            · simp only [hak, if_true]
              exact sameCfg_trans (ih _) (sameCfg_removeItemByKey s b)
            · simp only [hak, if_false]
              exact sameCfg_trans (ih _) (sameCfg_removeOldestItem s)
    · simp only [h, if_false]
      exact sameCfg_refl s

theorem sameCfg_updateOrAddItem (s : Cache K V) (k : K) (it : CacheItem V) :
    SameCfg (updateOrAddItem s k it) s := by
  cases h : assocFind? s.items k <;> simp [updateOrAddItem, h, SameCfg]

theorem sameCfg_setItem (s : Cache K V) (now : Int) (k : K) (v : Option V)
    (ttl : Option Int) : SameCfg (setItem s now k v ttl) s := by
  unfold setItem
  cases hf : assocFind? s.items k with
  | none =>
    have h1 := sameCfg_evictForAdd (s.items.length + 1) s (itemSizeOf s k v)
    cases ttl with
    | none =>
      exact sameCfg_trans (sameCfg_updateOrAddItem _ k _) ⟨h1.1, h1.2.1, h1.2.2.1, h1.2.2.2⟩
    | some t =>
      by_cases ht : 0 < t <;>
        simp only [ht, if_true, if_false]
      · exact sameCfg_trans (sameCfg_trans (sameCfg_refl _)
          (sameCfg_updateOrAddItem _ k _)) ⟨h1.1, h1.2.1, h1.2.2.1, h1.2.2.2⟩
      · exact sameCfg_trans (sameCfg_removeItemByKey _ k)
          (sameCfg_trans (sameCfg_updateOrAddItem _ k _) ⟨h1.1, h1.2.1, h1.2.2.1, h1.2.2.2⟩)
  | some ex =>
    have h1 := sameCfg_evictForUpdate (s.items.length + 1) s k ex.size (itemSizeOf s k v)
    cases ttl with
    | none =>
      exact sameCfg_trans (sameCfg_updateOrAddItem _ k _) ⟨h1.1, h1.2.1, h1.2.2.1, h1.2.2.2⟩
    | some t =>
      by_cases ht : 0 < t <;>
        simp only [ht, if_true, if_false]
      · exact sameCfg_trans (sameCfg_trans (sameCfg_refl _)
          (sameCfg_updateOrAddItem _ k _)) ⟨h1.1, h1.2.1, h1.2.2.1, h1.2.2.2⟩
      · exact sameCfg_trans (sameCfg_removeItemByKey _ k)
          (sameCfg_trans (sameCfg_updateOrAddItem _ k _) ⟨h1.1, h1.2.1, h1.2.2.1, h1.2.2.2⟩)

theorem sameCfg_Set (s : Cache K V) (now : Int) (k : K) (v : Option V) :
    SameCfg (Set s now k v) s :=
  sameCfg_setItem s now k v none

theorem sameCfg_SetWithTTL (s : Cache K V) (now : Int) (k : K) (v : Option V)
    (ttl : Int) : SameCfg (SetWithTTL s now k v ttl) s := by
  unfold SetWithTTL
  by_cases ht : 0 < ttl <;> simp only [ht, if_true, if_false]
  · exact sameCfg_trans (sameCfg_trans ⟨rfl, rfl, rfl, rfl⟩
      ⟨by simp, by simp, by simp, by simp⟩) (sameCfg_setItem s now k v (some ttl))
  · exact sameCfg_trans ⟨by simp, by simp, by simp, by simp⟩
      (sameCfg_setItem s now k v (some ttl))

theorem sameCfg_Delete (s : Cache K V) (k : K) : SameCfg (Delete s k) s :=
  sameCfg_removeItemByKey s k

theorem sameCfg_Clear (s : Cache K V) : SameCfg (Clear s) s :=
  ⟨rfl, rfl, rfl, rfl⟩

theorem sameCfg_cleanupLoop (fuel : Nat) (s : Cache K V) (now : Int) :
    SameCfg (cleanupLoop fuel s now) s := by
  induction fuel generalizing s with
  | zero => exact sameCfg_refl s
  | succ f ih =>
    rw [cleanupLoop]
    cases hq : s.expirationQueue with
    | nil => exact sameCfg_refl s
    | cons e rest =>
      by_cases ht : now < e.expireTime
      · simp only [ht, if_true]
        exact sameCfg_refl s
      · simp only [ht, if_false]
        cases hf : assocFind? s.items e.key with
        | none => exact sameCfg_trans (ih _) ⟨rfl, rfl, rfl, rfl⟩
        | some it =>
          by_cases hv : isItemValid it now
          · simp only [hv, if_true]
            exact sameCfg_trans (ih _) ⟨rfl, rfl, rfl, rfl⟩
          · simp only [hv, if_false]
            exact sameCfg_trans (ih _)
              (sameCfg_trans (sameCfg_removeItemByKey _ _) ⟨rfl, rfl, rfl, rfl⟩)

theorem sameCfg_CleanupExpired (s : Cache K V) (now : Int) :
    SameCfg (CleanupExpired s now) s :=
  sameCfg_cleanupLoop _ s now

/-! ### Well-formedness: the §3 structural relationships that hold of every
reachable state: the recency list and the store hold the same keys, each
exactly once, and the tracked size is the sum of the stored sizes -/

/-- Well-formed cache state. -/
def WF (s : Cache K V) : Prop :=
  s.list.Nodup ∧ (s.items.map Prod.fst).Nodup ∧
  (∀ k, k ∈ s.list ↔ (assocFind? s.items k).isSome) ∧
  s.sizeBytes = (sumSizes s.items : Int)

theorem wf_New (config : Option Config) (calcKV : K → V → Nat) (vzero : V) :
    WF (New (K := K) (V := V) config calcKV vzero) := by
  refine ⟨List.nodup_nil, List.nodup_nil, fun k => ?_, rfl⟩
  simp [New, assocFind?]

theorem wf_addExpirationEntry {s : Cache K V} (h : WF s) (k : K) (t : Int) :
    WF (addExpirationEntry s k t) := h

theorem wf_removeExpirationEntry {s : Cache K V} (h : WF s) (k : K) :
    WF (removeExpirationEntry s k) := by
  simp only [WF, items_removeExpirationEntry, list_removeExpirationEntry,
    sizeBytes_removeExpirationEntry]
  exact h

theorem wf_removeItemByKey {s : Cache K V} (h : WF s) (k : K) :
    WF (removeItemByKey s k) := by
  obtain ⟨hln, hkn, hmem, hsz⟩ := h
  cases hf : assocFind? s.items k with
  | none => rw [removeItemByKey_of_none hf]; exact ⟨hln, hkn, hmem, hsz⟩
  | some it =>
    unfold removeItemByKey
    rw [hf]
    refine wf_removeExpirationEntry ⟨?_, ?_, ?_, ?_⟩ k
    · exact nodup_listErase hln k
    · rw [keys_assocErase]
      exact nodup_listErase hkn k
    · intro j
      by_cases hjk : j = k
      · subst hjk
        simp only [not_mem_listErase_self hln j, false_iff]
        rw [assocFind?_erase_self_of_nodup hkn]
        simp
      · rw [mem_listErase_of_ne hjk, assocFind?_erase_ne hjk]
        exact hmem j
    · have := sumSizes_erase hf
      simp only at this ⊢
      omega

theorem removeOldestItem_eq {s : Cache K V} {a : K} {t : List K}
    (hl : s.list = a :: t) (hnm : a ∉ t) {it : CacheItem V}
    (hsome : assocFind? s.items a = some it) :
    removeOldestItem s = removeItemByKey s a := by
  unfold removeOldestItem removeItemByKey
  rw [hl]
  simp only [hsome, hl, listErase_cons_self, listErase_of_not_mem hnm]

theorem wf_removeOldestItem {s : Cache K V} (h : WF s) :
    WF (removeOldestItem s) := by
  cases hl : s.list with
  | nil => unfold removeOldestItem; rw [hl]; exact h
  | cons a t =>
    have hnodup : (a :: t).Nodup := hl ▸ h.1
    have hnm : a ∉ t := (List.nodup_cons.mp hnodup).1
    have hmem : a ∈ s.list := by rw [hl]; exact List.mem_cons_self a t
    have hsome := (h.2.2.1 a).mp hmem
    obtain ⟨it, hit⟩ := Option.isSome_iff_exists.mp hsome
    rw [removeOldestItem_eq hl hnm hit]
    exact wf_removeItemByKey h a

theorem find?_removeOldestItem_absent {s : Cache K V} {j : K}
    (h : assocFind? s.items j = none) :
    assocFind? (removeOldestItem s).items j = none := by
  cases hl : s.list with
  | nil => unfold removeOldestItem; rw [hl]; exact h
  | cons a t =>
    unfold removeOldestItem
    rw [hl]
    exact find?_removeItemByKey_absent (s := { s with list := t }) a h

theorem find?_evictForAdd_absent {j : K} (fuel : Nat) (s : Cache K V) (n : Nat)
    (h : assocFind? s.items j = none) :
    assocFind? (evictForAdd fuel s n).items j = none := by
  induction fuel generalizing s with
  | zero => exact h
  | succ f ih =>
    rw [evictForAdd]
    by_cases ho : overForAdd s n
    · simp only [ho, if_true]
      cases hl : s.list with
      | nil => exact h
      | cons a t => exact ih _ (find?_removeOldestItem_absent h)
    · simp only [ho, if_false]
      exact h

theorem wf_evictForAdd (fuel : Nat) {s : Cache K V} (h : WF s) (n : Nat) :
    WF (evictForAdd fuel s n) := by
  induction fuel generalizing s with
  | zero => exact h
  | succ f ih =>
    rw [evictForAdd]
    by_cases ho : overForAdd s n
    · simp only [ho, if_true]
      cases hl : s.list with
      | nil => exact h
      | cons a t => exact ih (wf_removeOldestItem h)
    · simp only [ho, if_false]
      exact h

theorem wf_evictForUpdate (fuel : Nat) {s : Cache K V} (h : WF s) (k : K) (o n : Nat) :
    WF (evictForUpdate fuel s k o n) ∧
    assocFind? (evictForUpdate fuel s k o n).items k = assocFind? s.items k := by
  induction fuel generalizing s with
  | zero => exact ⟨h, rfl⟩
  | succ f ih =>
    rw [evictForUpdate]
    by_cases ho : overForUpdate s o n = true
    · rw [if_pos ho]
      by_cases hlen : s.list.length ≤ 1
      · rw [if_pos hlen]
        exact ⟨h, rfl⟩
      · rw [if_neg hlen]
        cases hl : s.list with
        | nil => rw [hl] at hlen; simp at hlen
        | cons k0 t =>
          cases t with
          | nil => rw [hl] at hlen; simp at hlen
          | cons k1 t2 =>
            simp only [hl]
            have hnodup : (k0 :: k1 :: t2).Nodup := hl ▸ h.1
            by_cases hk0 : k0 = k
            · rw [if_pos hk0]
              have hk1k : k ≠ k1 := by
                intro he
                have := (List.nodup_cons.mp hnodup).1
                rw [hk0, he] at this
                exact this (List.mem_cons_self k1 t2)
              have h1 := wf_removeItemByKey h k1
              exact ⟨(ih h1).1, ((ih h1).2).trans (find?_removeItemByKey_ne hk1k)⟩
            · have hnm : k0 ∉ k1 :: t2 := (List.nodup_cons.mp hnodup).1
              have hmem : k0 ∈ s.list := by rw [hl]; exact List.mem_cons_self _ _
              obtain ⟨it0, hit0⟩ := Option.isSome_iff_exists.mp ((h.2.2.1 k0).mp hmem)
              rw [if_neg hk0, removeOldestItem_eq hl hnm hit0]
              have hkk0 : k ≠ k0 := fun he => hk0 he.symm
              have h1 := wf_removeItemByKey h k0
              exact ⟨(ih h1).1, ((ih h1).2).trans (find?_removeItemByKey_ne hkk0)⟩
    · rw [if_neg ho]
      exact ⟨h, rfl⟩

theorem length_items_removeItemByKey_of_mem {s : Cache K V} (h : WF s) {a : K}
    (hmem : a ∈ s.list) :
    (removeItemByKey s a).items.length + 1 = s.items.length := by
  obtain ⟨it, hit⟩ := Option.isSome_iff_exists.mp ((h.2.2.1 a).mp hmem)
  rw [items_removeItemByKey_of_some hit]
  exact length_assocErase_of_some hit

theorem length_items_removeOldestItem {s : Cache K V} (h : WF s) {a : K} {t : List K}
    (hl : s.list = a :: t) :
    (removeOldestItem s).items.length + 1 = s.items.length := by
  have hnodup : (a :: t).Nodup := hl ▸ h.1
  have hmem : a ∈ s.list := by rw [hl]; exact List.mem_cons_self a t
  obtain ⟨it, hit⟩ := Option.isSome_iff_exists.mp ((h.2.2.1 a).mp hmem)
  rw [removeOldestItem_eq hl (List.nodup_cons.mp hnodup).1 hit]
  exact length_items_removeItemByKey_of_mem h hmem

theorem evictForAdd_exit {fuel : Nat} {s : Cache K V} (h : WF s) (n : Nat)
    (hfuel : s.items.length + 1 ≤ fuel) :
    overForAdd (evictForAdd fuel s n) n = false ∨ (evictForAdd fuel s n).list = [] := by
  induction fuel generalizing s with
  | zero => omega
  | succ f ih =>
    rw [evictForAdd]
    by_cases ho : overForAdd s n
    · simp only [ho, if_true]
      cases hl : s.list with
      | nil => exact Or.inr hl
      | cons a t =>
        have hlen := length_items_removeOldestItem h hl
        exact ih (wf_removeOldestItem h) (by omega)
    · simp only [ho, if_false]
      exact Or.inl (by simpa using ho)

theorem evictForUpdate_exit {fuel : Nat} {s : Cache K V} (h : WF s) (k : K) (o n : Nat)
    (hfuel : s.items.length + 1 ≤ fuel) :
    overForUpdate (evictForUpdate fuel s k o n) o n = false ∨
      (evictForUpdate fuel s k o n).list.length ≤ 1 := by
  induction fuel generalizing s with
  | zero => omega
  | succ f ih =>
    rw [evictForUpdate]
    by_cases ho : overForUpdate s o n = true
    · rw [if_pos ho]
      by_cases hlen : s.list.length ≤ 1
      · rw [if_pos hlen]
        exact Or.inr hlen
      · rw [if_neg hlen]
        cases hl : s.list with
        | nil => rw [hl] at hlen; simp at hlen
        | cons k0 t =>
          cases t with
          | nil => rw [hl] at hlen; simp at hlen
          | cons k1 t2 =>
            simp only [hl]
            have hnodup : (k0 :: k1 :: t2).Nodup := hl ▸ h.1
            by_cases hk0 : k0 = k
            · rw [if_pos hk0]
              have hmem1 : k1 ∈ s.list := by rw [hl]; simp
              have hl1 := length_items_removeItemByKey_of_mem h hmem1
              exact ih (wf_removeItemByKey h k1) (by omega)
            · have hnm : k0 ∉ k1 :: t2 := (List.nodup_cons.mp hnodup).1
              obtain ⟨it0, hit0⟩ := Option.isSome_iff_exists.mp
                ((h.2.2.1 k0).mp (by rw [hl]; exact List.mem_cons_self _ _))
              rw [if_neg hk0, removeOldestItem_eq hl hnm hit0]
              have hl0 := length_items_removeItemByKey_of_mem h
                (by rw [hl]; exact List.mem_cons_self _ _)
              exact ih (wf_removeItemByKey h k0) (by omega)
    · rw [if_neg ho]
      exact Or.inl (by simpa using ho)

/-! ### The store binding established by `updateOrAddItem` and `setItem` -/

theorem find?_updateOrAddItem_self (s : Cache K V) (k : K) (it : CacheItem V) :
    assocFind? (updateOrAddItem s k it).items k = some it := by
  cases h : assocFind? s.items k with
  | some b =>
    simp only [updateOrAddItem, h]
    exact assocFind?_replace_self h it
  | none =>
    simp only [updateOrAddItem, h]
    rw [assocFind?_append_none h, assocFind?_singleton_self]

theorem find?_updateOrAddItem_ne {s : Cache K V} {j k : K} (h : j ≠ k)
    (it : CacheItem V) :
    assocFind? (updateOrAddItem s k it).items j = assocFind? s.items j := by
  cases hf : assocFind? s.items k with
  | some b =>
    simp only [updateOrAddItem, hf]
    exact assocFind?_replace_ne h it
  | none =>
    simp only [updateOrAddItem, hf]
    cases hj : assocFind? s.items j with
    | some c => exact assocFind?_append_some hj
    | none => rw [assocFind?_append_none hj, assocFind?_singleton_ne h]

theorem wf_commit_add {r1 : Cache K V} (hwf : WF r1) (k : K) (it : CacheItem V)
    (hf : assocFind? r1.items k = none) :
    WF (updateOrAddItem { r1 with sizeBytes := r1.sizeBytes + it.size } k it) := by
  obtain ⟨hln, hkn, hmem, hsz⟩ := hwf
  have hkabs : k ∉ r1.items.map Prod.fst := by
    intro hm
    have := (assocFind?_isSome_iff r1.items k).mpr hm
    rw [hf] at this
    simp at this
  have hklist : k ∉ r1.list := fun hm => by
    have := (hmem k).mp hm
    rw [hf] at this
    simp at this
  simp only [updateOrAddItem, hf]
  refine ⟨?_, ?_, ?_, ?_⟩
  · rw [show r1.list ++ [k] = r1.list ++ k :: [] from rfl, List.nodup_middle]
    exact List.nodup_cons.mpr ⟨by simpa using hklist, by simpa using hln⟩
  · rw [List.map_append]
    rw [show r1.items.map Prod.fst ++ [(k, it)].map Prod.fst
          = r1.items.map Prod.fst ++ k :: [] from rfl, List.nodup_middle]
    exact List.nodup_cons.mpr ⟨by simpa using hkabs, by simpa using hkn⟩
  · intro j
    by_cases hjk : j = k
    · subst hjk
      rw [assocFind?_append_none hf, assocFind?_singleton_self]
      simp
    · simp only [List.mem_append, List.mem_singleton, hjk, or_false]
      cases hj : assocFind? r1.items j with
      | some c =>
        rw [assocFind?_append_some hj]
        have := hmem j
        rw [hj] at this
        simpa using this
      | none =>
        rw [assocFind?_append_none hj, assocFind?_singleton_ne hjk]
        have := hmem j
        rw [hj] at this
        simpa using this
  · have : sumSizes (r1.items ++ [(k, it)]) = sumSizes r1.items + it.size := by
      simp [sumSizes_append, sumSizes]
    simp only [this]
    push_cast
    omega

theorem wf_commit_update {r1 : Cache K V} (hwf : WF r1) (k : K) (it ex : CacheItem V)
    (hf : assocFind? r1.items k = some ex) :
    WF (updateOrAddItem { r1 with sizeBytes := r1.sizeBytes - ex.size + it.size } k it) := by
  obtain ⟨hln, hkn, hmem, hsz⟩ := hwf
  simp only [updateOrAddItem, hf]
  refine ⟨?_, ?_, ?_, ?_⟩
  · rw [show listErase r1.list k ++ [k] = listErase r1.list k ++ k :: [] from rfl,
      List.nodup_middle]
    exact List.nodup_cons.mpr
      ⟨by simpa using not_mem_listErase_self hln k, by simpa using nodup_listErase hln k⟩
  · rw [keys_assocReplace]
    exact hkn
  · intro j
    by_cases hjk : j = k
    · subst hjk
      rw [assocFind?_replace_self hf]
      simp
    · simp only [List.mem_append, List.mem_singleton, hjk, or_false]
      rw [mem_listErase_of_ne hjk, assocFind?_replace_ne hjk]
      exact hmem j
  · have := sumSizes_replace hf it
    simp only [this]
    omega

theorem wf_setItem {s : Cache K V} (h : WF s) (now : Int) (k : K) (v : Option V)
    (ttl : Option Int) : WF (setItem s now k v ttl) := by
  unfold setItem
  have hcore : WF (updateOrAddItem
      (match assocFind? s.items k with
       | some existing =>
         let s1 := evictForUpdate (s.items.length + 1) s k existing.size (itemSizeOf s k v)
         { s1 with sizeBytes := s1.sizeBytes - existing.size + itemSizeOf s k v }
       | none =>
         let s1 := evictForAdd (s.items.length + 1) s (itemSizeOf s k v)
         { s1 with sizeBytes := s1.sizeBytes + itemSizeOf s k v })
      k ⟨v, ttl, now, itemSizeOf s k v⟩) := by
    cases hf : assocFind? s.items k with
    | none =>
      have hwf1 := wf_evictForAdd (s.items.length + 1) h (itemSizeOf s k v)
      have hnone := find?_evictForAdd_absent (s.items.length + 1) s (itemSizeOf s k v) hf
      exact wf_commit_add hwf1 k ⟨v, ttl, now, itemSizeOf s k v⟩ hnone
    | some ex =>
      have hwf1 := (wf_evictForUpdate (s.items.length + 1) h k ex.size (itemSizeOf s k v)).1
      have hex : assocFind? (evictForUpdate (s.items.length + 1) s k ex.size
          (itemSizeOf s k v)).items k = some ex :=
        ((wf_evictForUpdate (s.items.length + 1) h k ex.size (itemSizeOf s k v)).2).trans hf
      exact wf_commit_update hwf1 k ⟨v, ttl, now, itemSizeOf s k v⟩ ex hex
  cases ttl with
  | none => exact hcore
  | some t =>
    dsimp only
    by_cases ht : 0 < t
    · rw [if_pos ht]
      exact wf_addExpirationEntry hcore k (now + t)
    · rw [if_neg ht]
      exact wf_removeItemByKey hcore k

theorem wf_Set {s : Cache K V} (h : WF s) (now : Int) (k : K) (v : Option V) :
    WF (Set s now k v) :=
  wf_setItem h now k v none

theorem wf_SetWithTTL {s : Cache K V} (h : WF s) (now : Int) (k : K) (v : Option V)
    (ttl : Int) : WF (SetWithTTL s now k v ttl) := by
  unfold SetWithTTL
  by_cases ht : 0 < ttl
  · rw [if_pos ht]
    exact wf_addExpirationEntry
      (wf_removeExpirationEntry (wf_setItem h now k v (some ttl)) k) k (now + ttl)
  · rw [if_neg ht]
    exact wf_removeExpirationEntry (wf_setItem h now k v (some ttl)) k

theorem wf_Delete {s : Cache K V} (h : WF s) (k : K) : WF (Delete s k) :=
  wf_removeItemByKey h k

theorem wf_Clear (s : Cache K V) : WF (Clear s) := by
  refine ⟨List.nodup_nil, List.nodup_nil, fun k => ?_, rfl⟩
  simp [Clear, assocFind?]

theorem wf_cleanupLoop (fuel : Nat) {s : Cache K V} (h : WF s) (now : Int) :
    WF (cleanupLoop fuel s now) := by
  induction fuel generalizing s with
  | zero => exact h
  | succ f ih =>
    rw [cleanupLoop]
    cases hq : s.expirationQueue with
    | nil => exact h
    | cons e rest =>
      dsimp only
      by_cases ht : now < e.expireTime
      · rw [if_pos ht]
        exact h
      · rw [if_neg ht]
        have h1 : WF { s with
            expirationQueue := heapPopRoot (e :: rest)
            expirationMap := assocErase s.expirationMap e.key } := h
        cases hfe : assocFind? s.items e.key with
        | none =>
          simp only [hfe]
          exact ih h1
        | some it =>
          simp only [hfe]
          by_cases hv : isItemValid it now = true
          · rw [if_pos hv]
            exact ih h1
          · rw [if_neg hv]
            exact ih (wf_removeItemByKey h1 e.key)

theorem wf_CleanupExpired {s : Cache K V} (h : WF s) (now : Int) :
    WF (CleanupExpired s now) :=
  wf_cleanupLoop _ h now

/-! ### Sequences of public operations: any state a client can reach -/

/-- One public mutating call with its call-time argument; `get` is included
for completeness and leaves the state unchanged (Go `Get` only reads under
the shared lock). -/
inductive Op (K V : Type) where
  | set (now : Int) (k : K) (v : Option V)
  | setWithTTL (now : Int) (k : K) (v : Option V) (ttl : Int)
  | del (k : K)
  | get (now : Int) (k : K)
  | clear
  | cleanup (now : Int)

/-- The state transition of one public call. -/
def applyOp (s : Cache K V) : Op K V → Cache K V
  | .set now k v => Set s now k v
  | .setWithTTL now k v ttl => SetWithTTL s now k v ttl
  | .del k => Delete s k
  | .get _ _ => s
  | .clear => Clear s
  | .cleanup now => CleanupExpired s now

/-- The state after a whole sequence of public calls. -/
def runOps (s : Cache K V) (ops : List (Op K V)) : Cache K V :=
  ops.foldl applyOp s

theorem wf_applyOp {s : Cache K V} (h : WF s) (op : Op K V) : WF (applyOp s op) := by
  cases op with
  | set now k v => exact wf_Set h now k v
  | setWithTTL now k v ttl => exact wf_SetWithTTL h now k v ttl
  | del k => exact wf_Delete h k
  | get now k => exact h
  | clear => exact wf_Clear s
  | cleanup now => exact wf_CleanupExpired h now

theorem wf_runOps {s : Cache K V} (h : WF s) (ops : List (Op K V)) :
    WF (runOps s ops) := by
  induction ops generalizing s with
  | nil => exact h
  | cons op rest ih => exact ih (wf_applyOp h op)

theorem sameCfg_applyOp (s : Cache K V) (op : Op K V) : SameCfg (applyOp s op) s := by
  cases op with
  | set now k v => exact sameCfg_Set s now k v
  | setWithTTL now k v ttl => exact sameCfg_SetWithTTL s now k v ttl
  | del k => exact sameCfg_Delete s k
  | get now k => exact sameCfg_refl s
  | clear => exact sameCfg_Clear s
  | cleanup now => exact sameCfg_CleanupExpired s now

theorem sameCfg_runOps (s : Cache K V) (ops : List (Op K V)) :
    SameCfg (runOps s ops) s := by
  induction ops generalizing s with
  | nil => exact sameCfg_refl s
  | cons op rest ih => exact sameCfg_trans (ih (applyOp s op)) (sameCfg_applyOp s op)

/-- C8: after every public operation (`Set`, `SetWithTTL`, `Get`, `Delete`,
`Clear`, `CleanupExpired`) completes — that is, in every state reachable by
a sequence of public calls from a freshly constructed cache, under any
configuration — the cumulative tracked size counter equals the sum over all
stored entries of their computed `Size` fields, and it is never negative. -/
theorem c8_size_accounting (config : Option Config) (calcKV : K → V → Nat) (vzero : V)
    (ops : List (Op K V)) :
    (runOps (New config calcKV vzero) ops).sizeBytes
        = (sumSizes (runOps (New config calcKV vzero) ops).items : Int)
    ∧ 0 ≤ (runOps (New config calcKV vzero) ops).sizeBytes := by
  have hwf := wf_runOps (wf_New config calcKV vzero) ops
  exact ⟨hwf.2.2.2, by rw [hwf.2.2.2]; exact Int.ofNat_nonneg _⟩

/-! ### The binding a write leaves for its own key -/

theorem keys_nodup_updateOrAddItem {s : Cache K V}
    (h : (s.items.map Prod.fst).Nodup) (k : K) (it : CacheItem V) :
    ((updateOrAddItem s k it).items.map Prod.fst).Nodup := by
  cases hf : assocFind? s.items k with
  | some b =>
    simp only [updateOrAddItem, hf]
    rw [keys_assocReplace]
    exact h
  | none =>
    have hkabs : k ∉ s.items.map Prod.fst := by
      intro hm
      have := (assocFind?_isSome_iff s.items k).mpr hm
      rw [hf] at this
      simp at this
    simp only [updateOrAddItem, hf]
    rw [List.map_append]
    rw [show s.items.map Prod.fst ++ [(k, it)].map Prod.fst
          = s.items.map Prod.fst ++ k :: [] from rfl, List.nodup_middle]
    exact List.nodup_cons.mpr ⟨by simpa using hkabs, by simpa using h⟩

theorem find?_setItem_self (s : Cache K V) (now : Int) (k : K) (v : Option V)
    (ttl : Option Int) (hpos : ∀ t, ttl = some t → 0 < t) :
    assocFind? (setItem s now k v ttl).items k
      = some ⟨v, ttl, now, itemSizeOf s k v⟩ := by
  unfold setItem
  cases ttl with
  | none =>
    dsimp only
    exact find?_updateOrAddItem_self _ k _
  | some t =>
    dsimp only
    rw [if_pos (hpos t rfl)]
    rw [items_addExpirationEntry]
    exact find?_updateOrAddItem_self _ k _

theorem find?_setItem_nonpos {s : Cache K V} (h : WF s) (now : Int) (k : K)
    (v : Option V) {t : Int} (ht : t ≤ 0) :
    assocFind? (setItem s now k v (some t)).items k = none := by
  unfold setItem
  dsimp only
  rw [if_neg (by omega : ¬ 0 < t)]
  cases hf : assocFind? s.items k with
  | none =>
    simp only [hf]
    have hkn : ((evictForAdd (s.items.length + 1) s (itemSizeOf s k v)).items.map
        Prod.fst).Nodup := (wf_evictForAdd (s.items.length + 1) h (itemSizeOf s k v)).2.1
    have hs3 := keys_nodup_updateOrAddItem
      (s := { evictForAdd (s.items.length + 1) s (itemSizeOf s k v) with
              sizeBytes := (evictForAdd (s.items.length + 1) s
                (itemSizeOf s k v)).sizeBytes + itemSizeOf s k v }) hkn k
      ⟨v, some t, now, itemSizeOf s k v⟩
    rw [items_removeItemByKey_of_some (find?_updateOrAddItem_self _ k _)]
    exact assocFind?_erase_self_of_nodup hs3 k
  | some ex =>
    simp only [hf]
    have hkn : ((evictForUpdate (s.items.length + 1) s k ex.size
        (itemSizeOf s k v)).items.map Prod.fst).Nodup :=
      (wf_evictForUpdate (s.items.length + 1) h k ex.size (itemSizeOf s k v)).1.2.1
    have hs3 := keys_nodup_updateOrAddItem
      (s := { evictForUpdate (s.items.length + 1) s k ex.size (itemSizeOf s k v) with
              sizeBytes := (evictForUpdate (s.items.length + 1) s k ex.size
                (itemSizeOf s k v)).sizeBytes - ex.size + itemSizeOf s k v }) hkn k
      ⟨v, some t, now, itemSizeOf s k v⟩
    rw [items_removeItemByKey_of_some (find?_updateOrAddItem_self _ k _)]
    exact assocFind?_erase_self_of_nodup hs3 k

theorem find?_Set_self (s : Cache K V) (now : Int) (k : K) (v : Option V) :
    assocFind? (Set s now k v).items k = some ⟨v, none, now, itemSizeOf s k v⟩ :=
  find?_setItem_self s now k v none (by intro t ht; cases ht)

theorem find?_SetWithTTL_self (s : Cache K V) (now : Int) (k : K) (v : Option V)
    {t : Int} (ht : 0 < t) :
    assocFind? (SetWithTTL s now k v t).items k
      = some ⟨v, some t, now, itemSizeOf s k v⟩ := by
  unfold SetWithTTL
  dsimp only
  rw [if_pos ht, items_addExpirationEntry, items_removeExpirationEntry]
  exact find?_setItem_self s now k v (some t) (by intro u hu; cases hu; exact ht)

theorem find?_SetWithTTL_nonpos {s : Cache K V} (h : WF s) (now : Int) (k : K)
    (v : Option V) {t : Int} (ht : t ≤ 0) :
    assocFind? (SetWithTTL s now k v t).items k = none := by
  unfold SetWithTTL
  dsimp only
  rw [if_neg (by omega : ¬ 0 < t), items_removeExpirationEntry]
  exact find?_setItem_nonpos h now k v ht

/-! ### `Get` characterization -/

theorem Get_eq_of_some {s : Cache K V} {k : K} {it : CacheItem V} (now : Int)
    (h : assocFind? s.items k = some it) :
    Get s now k = if isItemValid it now then (it.value, true) else (none, false) := by
  simp [Get, h]

theorem Get_eq_of_none {s : Cache K V} {k : K} (now : Int)
    (h : assocFind? s.items k = none) : Get s now k = (none, false) := by
  simp [Get, h]

/-! ### Key uniqueness of the expiration map (a Go map can hold each key once) -/

theorem mem_keys_assocSet (l : List (K × α)) (k : K) (c : α) (j : K) :
    j ∈ (assocSet l k c).map Prod.fst ↔ j ∈ l.map Prod.fst ∨ j = k := by
  induction l with
  | nil => simp [assocSet]
  | cons p rest ih =>
    obtain ⟨a, b⟩ := p
    by_cases hak : a = k
    · subst hak
      simp only [assocSet, eq_self_iff_true, if_true, List.map_cons, List.mem_cons]
      tauto
    · simp only [assocSet, hak, if_false, List.map_cons, List.mem_cons, ih]
      tauto

theorem nodup_keys_assocSet {l : List (K × α)} (h : (l.map Prod.fst).Nodup)
    (k : K) (c : α) : ((assocSet l k c).map Prod.fst).Nodup := by
  induction l with
  | nil => simp [assocSet]
  | cons p rest ih =>
    obtain ⟨a, b⟩ := p
    have h2 : a ∉ rest.map Prod.fst ∧ (rest.map Prod.fst).Nodup := List.nodup_cons.mp h
    by_cases hak : a = k
    · subst hak
      simp only [assocSet, eq_self_iff_true, if_true, List.map_cons]
      exact List.nodup_cons.mpr ⟨h2.1, h2.2⟩
    · simp only [assocSet, hak, if_false, List.map_cons]
      refine List.nodup_cons.mpr ⟨?_, ih h2.2⟩
      rw [mem_keys_assocSet]
      rintro (hh | hh)
      · exact h2.1 hh
      · exact hak hh

/-- The expiration map holds each key at most once (automatic for a Go map;
an invariant of the association-list embedding). -/
def MapWF (s : Cache K V) : Prop :=
  (s.expirationMap.map Prod.fst).Nodup

theorem mapwf_New (config : Option Config) (calcKV : K → V → Nat) (vzero : V) :
    MapWF (New (K := K) (V := V) config calcKV vzero) :=
  List.nodup_nil

theorem mapwf_addExpirationEntry {s : Cache K V} (h : MapWF s) (k : K) (t : Int) :
    MapWF (addExpirationEntry s k t) :=
  nodup_keys_assocSet h k s.nextEid

theorem mapwf_removeExpirationEntry {s : Cache K V} (h : MapWF s) (k : K) :
    MapWF (removeExpirationEntry s k) := by
  cases hf : assocFind? s.expirationMap k with
  | none => simpa [removeExpirationEntry, hf] using h
  | some eid =>
    simp only [MapWF, removeExpirationEntry, hf]
    rw [keys_assocErase]
    exact nodup_listErase h k

theorem mapwf_removeItemByKey {s : Cache K V} (h : MapWF s) (k : K) :
    MapWF (removeItemByKey s k) := by
  cases hf : assocFind? s.items k with
  | none => rw [removeItemByKey_of_none hf]; exact h
  | some it =>
    unfold removeItemByKey
    rw [hf]
    dsimp only
    refine mapwf_removeExpirationEntry ?_ k
    exact h

theorem mapwf_removeOldestItem {s : Cache K V} (h : MapWF s) :
    MapWF (removeOldestItem s) := by
  cases hl : s.list with
  | nil => unfold removeOldestItem; rw [hl]; exact h
  | cons a t =>
    unfold removeOldestItem
    rw [hl]
    exact mapwf_removeItemByKey (s := { s with list := t }) h a

theorem mapwf_evictForAdd (fuel : Nat) {s : Cache K V} (h : MapWF s) (n : Nat) :
    MapWF (evictForAdd fuel s n) := by
  induction fuel generalizing s with
  | zero => exact h
  | succ f ih =>
    rw [evictForAdd]
    by_cases ho : overForAdd s n = true
    · rw [if_pos ho]
      cases hl : s.list with
      | nil => exact h
      | cons a t => exact ih (mapwf_removeOldestItem h)
    · rw [if_neg ho]
      exact h

theorem mapwf_evictForUpdate (fuel : Nat) {s : Cache K V} (h : MapWF s) (k : K)
    (o n : Nat) : MapWF (evictForUpdate fuel s k o n) := by
  induction fuel generalizing s with
  | zero => exact h
  | succ f ih =>
    rw [evictForUpdate]
    by_cases ho : overForUpdate s o n = true
    · rw [if_pos ho]
      by_cases hlen : s.list.length ≤ 1
      · rw [if_pos hlen]
        exact h
      · rw [if_neg hlen]
        cases hl : s.list with
        | nil => exact ih (mapwf_removeOldestItem h)
        | cons k0 t =>
          cases t with
          | nil => exact ih (mapwf_removeOldestItem h)
          | cons k1 t2 =>
            dsimp only
            by_cases hk0 : k0 = k
            · rw [if_pos hk0]
              exact ih (mapwf_removeItemByKey h k1)
            · rw [if_neg hk0]
              exact ih (mapwf_removeOldestItem h)
    · rw [if_neg ho]
      exact h

theorem mapwf_updateOrAddItem {s : Cache K V} (h : MapWF s) (k : K)
    (it : CacheItem V) : MapWF (updateOrAddItem s k it) := by
  cases hf : assocFind? s.items k <;> simp only [updateOrAddItem, hf] <;> exact h

theorem mapwf_setItem {s : Cache K V} (h : MapWF s) (now : Int) (k : K)
    (v : Option V) (ttl : Option Int) : MapWF (setItem s now k v ttl) := by
  unfold setItem
  have hcore : MapWF (updateOrAddItem
      (match assocFind? s.items k with
       | some existing =>
         let s1 := evictForUpdate (s.items.length + 1) s k existing.size (itemSizeOf s k v)
         { s1 with sizeBytes := s1.sizeBytes - existing.size + itemSizeOf s k v }
       | none =>
         let s1 := evictForAdd (s.items.length + 1) s (itemSizeOf s k v)
         { s1 with sizeBytes := s1.sizeBytes + itemSizeOf s k v })
      k ⟨v, ttl, now, itemSizeOf s k v⟩) := by
    cases hf : assocFind? s.items k with
    | none =>
      dsimp only
      refine mapwf_updateOrAddItem ?_ k _
      exact mapwf_evictForAdd (s.items.length + 1) h _
    | some ex =>
      dsimp only
      refine mapwf_updateOrAddItem ?_ k _
      exact mapwf_evictForUpdate (s.items.length + 1) h k _ _
  cases ttl with
  | none => exact hcore
  | some t =>
    dsimp only
    by_cases ht : 0 < t
    · rw [if_pos ht]
      exact mapwf_addExpirationEntry hcore k (now + t)
    · rw [if_neg ht]
      exact mapwf_removeItemByKey hcore k

theorem mapwf_SetWithTTL {s : Cache K V} (h : MapWF s) (now : Int) (k : K)
    (v : Option V) (ttl : Int) : MapWF (SetWithTTL s now k v ttl) := by
  unfold SetWithTTL
  by_cases ht : 0 < ttl
  · rw [if_pos ht]
    exact mapwf_addExpirationEntry
      (mapwf_removeExpirationEntry (mapwf_setItem h now k v (some ttl)) k) k (now + ttl)
  · rw [if_neg ht]
    exact mapwf_removeExpirationEntry (mapwf_setItem h now k v (some ttl)) k

theorem find?_map_removeExpirationEntry_self {s : Cache K V} (h : MapWF s) (k : K) :
    assocFind? (removeExpirationEntry s k).expirationMap k = none := by
  cases hm : assocFind? s.expirationMap k with
  | none => simp only [removeExpirationEntry, hm]
  | some eid =>
    simp only [removeExpirationEntry, hm]
    exact assocFind?_erase_self_of_nodup h k

/-! ### Concrete instances used to evaluate the embedding -/

/-- A size function for a `Nat`-key, `Nat`-value cache: both types are
fixed-width (8 bytes each), plus the 48-byte per-entry overhead that
`fastCalculateItemSize` always adds. -/
def natCalc : Nat → Nat → Nat := fun _ _ => 64

/-- A fresh unbounded cache over `Nat` keys and values. -/
def fresh0 : Cache Nat Nat := New (some ⟨none, none⟩) natCalc 0

/-- Two consecutive `SetWithTTL` calls on the same key. -/
def c1state : Cache Nat Nat :=
  SetWithTTL (SetWithTTL fresh0 0 0 (some 5) 100) 1 0 (some 5) 200

/-- A `Set` overwriting a key that was stored with a TTL. -/
def c1stateB : Cache Nat Nat := Set (SetWithTTL fresh0 0 0 (some 5) 100) 3 0 (some 9)

/-- C1: the one-expiration-slot-per-TTL-key invariant fails on the code.
After `SetWithTTL(k,·,100ns)` at t=0 and `SetWithTTL(k,·,200ns)` at t=1 the
expiration heap holds TWO entries for the live TTL'd key `k` (`setItem`
pushed the fresh entry and redirected the map slot to it, so the
`removeExpirationEntry` call in `SetWithTTL` removed the fresh entry instead
of the stale one, then pushed another fresh entry); and after a plain `Set`
overwrites a TTL'd key, the key has no TTL yet keeps a heap entry and a map
slot. -/
theorem c1_duplicate_heap_entries :
    (c1state.expirationQueue.map ExpEntry.key = [0, 0]
      ∧ (assocFind? c1state.items 0).map CacheItem.ttl = some (some 200))
    ∧ (c1stateB.expirationQueue.map ExpEntry.key = [0]
      ∧ assocFind? c1stateB.expirationMap 0 = some 1
      ∧ (assocFind? c1stateB.items 0).map CacheItem.ttl = some none) := by
  decide

/-- A cache holding one TTL'd entry (10ns at t=0) and one plain entry. -/
def c2state : Cache Nat Nat := Set (SetWithTTL fresh0 0 1 (some 7) 10) 0 2 (some 8)

/-- C2: behavior of `cleanupExpiredItems` at the failing input.  At t=20 the
entry under key 1 has expired and the one under key 2 has not; the sweep
removes exactly key 1, `Len` drops from 2 to 1, the heap is drained — but
the Go `CleanupExpired()` has no return value at all, so the removed count
(1 here) is not returned to the caller as the claim and the README
(`CleanupExpired() int`) require. -/
theorem c2_cleanup_behavior :
    Len c2state = 2
    ∧ Len (CleanupExpired c2state 20) = 1
    ∧ assocFind? (CleanupExpired c2state 20).items 1 = none
    ∧ assocFind? (CleanupExpired c2state 20).items 2 = assocFind? c2state.items 2
    ∧ (CleanupExpired c2state 20).expirationQueue = [] := by
  decide

/-- C3: `Get(k)` returns `(value, true)` iff the key is present and either
no TTL is set or `now - createdAt < ttl`, and returns `(nil, false)`
otherwise; for an entry stored with `ttl > 0`, `Get` answers `(value, true)`
at every instant strictly before `createdAt + ttl` and `(nil, false)` at or
after it. -/
theorem c3_get_ttl_semantics (s : Cache K V) (now : Int) (k : K) :
    ((Get s now k).2 = true ↔
      ∃ it, assocFind? s.items k = some it ∧
        (it.ttl = none ∨ ∃ t, it.ttl = some t ∧ now - it.createdAt < t))
    ∧ (∀ it, assocFind? s.items k = some it → (Get s now k).2 = true →
        Get s now k = (it.value, true))
    ∧ ((Get s now k).2 = false → (Get s now k).1 = none)
    ∧ (∀ (r : Int) (v : Option V) (t : Int), 0 < t → ∀ q : Int,
        (q < r + t → Get (SetWithTTL s r k v t) q k = (v, true)) ∧
        (r + t ≤ q → Get (SetWithTTL s r k v t) q k = (none, false))) := by
  refine ⟨?_, ?_, ?_, ?_⟩
  · cases hf : assocFind? s.items k with
    | none =>
      rw [Get_eq_of_none now hf]
      simp
    | some it =>
      rw [Get_eq_of_some now hf]
      by_cases hv : isItemValid it now = true
      · rw [if_pos hv]
        refine iff_of_true rfl ⟨it, rfl, ?_⟩
        cases htl : it.ttl with
        | none => exact Or.inl rfl
        | some t =>
          refine Or.inr ⟨t, rfl, ?_⟩
          simpa [isItemValid, htl] using hv
      · rw [if_neg hv]
        refine iff_of_false (by simp) ?_
        rintro ⟨it', hit', hor⟩
        cases hit'
        apply hv
        rcases hor with h1 | ⟨t, ht1, ht2⟩
        · simp [isItemValid, h1]
        · simp only [isItemValid, ht1]
          exact decide_eq_true ht2
  · intro it hf htrue
    rw [Get_eq_of_some now hf] at htrue ⊢
    by_cases hv : isItemValid it now = true
    · rw [if_pos hv]
    · rw [if_neg hv] at htrue
      simp at htrue
  · intro hfalse
    cases hf : assocFind? s.items k with
    | none => simp [Get_eq_of_none now hf]
    | some it =>
      rw [Get_eq_of_some now hf] at hfalse ⊢
      by_cases hv : isItemValid it now = true
      · rw [if_pos hv] at hfalse
        simp at hfalse
      · rw [if_neg hv]
  · intro r v t ht q
    have hbind := find?_SetWithTTL_self s r k v ht
    constructor
    · intro hq
      rw [Get_eq_of_some q hbind]
      have hvalid : isItemValid (⟨v, some t, r, itemSizeOf s k v⟩ : CacheItem V) q
          = true := by
        simp only [isItemValid]
        exact decide_eq_true (by omega)
      rw [if_pos hvalid]
    · intro hq
      rw [Get_eq_of_some q hbind]
      have hvalid : ¬ isItemValid (⟨v, some t, r, itemSizeOf s k v⟩ : CacheItem V) q
          = true := by
        simp only [isItemValid, decide_eq_true_eq]
        omega
      rw [if_neg hvalid]

/-- C3 witness: a concrete instantiation — key 3 stored at t=0 with TTL 10
is found at t=5 and gone at t=12. -/
theorem c3_get_ttl_semantics_witness :
    (0 : Int) < 10
    ∧ Get (SetWithTTL fresh0 0 3 (some 7) 10) 5 3 = (some 7, true)
    ∧ Get (SetWithTTL fresh0 0 3 (some 7) 10) 12 3 = (none, false) :=
  ⟨by decide,
   ((c3_get_ttl_semantics fresh0 5 3).2.2.2 0 (some 7) 10 (by decide) 5).1 (by decide),
   ((c3_get_ttl_semantics fresh0 12 3).2.2.2 0 (some 7) 10 (by decide) 12).2 (by decide)⟩

/-- The run refuting C4 as stated: two positive-TTL writes of key 0, then a
`SetWithTTL` with TTL -1. -/
def c4state : Cache Nat Nat :=
  SetWithTTL (SetWithTTL (SetWithTTL fresh0 0 0 (some 5) 100) 1 0 (some 5) 200)
    2 0 (some 5) (-1)

/-- C4 counterexample: immediately after `SetWithTTL(k, v, -1)` the key is
absent from the store, yet the expiration HEAP still holds an entry keyed
`k` (a stale entry left behind by the earlier TTL overwrite), so `k` does
not contribute "nothing to the expiration structures" as claimed. -/
theorem c4_counterexample :
    assocFind? c4state.items 0 = none
    ∧ ¬ (∀ e ∈ c4state.expirationQueue, e.key ≠ 0) := by
  decide

/-- C4 (amended): after `SetWithTTL(k, v, ttl ≤ 0)` on a well-formed state,
`k` is absent from the store (hence contributes nothing to `Len`), absent
from the recency list, absent from the expiration MAP, `Get(k)` returns
`(nil, false)` at every instant, and the resulting state is well formed
(hence the tracked size is exactly the sum over the remaining entries, with
no contribution from `k`).  Only the expiration heap may retain stale
entries keyed `k` from earlier TTL writes (see the counterexample); such
entries never resurrect `k`. -/
theorem c4_nonpositive_ttl_absent {s : Cache K V} (hwf : WF s) (hmwf : MapWF s)
    (now : Int) (k : K) (v : Option V) {t : Int} (ht : t ≤ 0) :
    assocFind? (SetWithTTL s now k v t).items k = none
    ∧ k ∉ (SetWithTTL s now k v t).list
    ∧ assocFind? (SetWithTTL s now k v t).expirationMap k = none
    ∧ (∀ q : Int, Get (SetWithTTL s now k v t) q k = (none, false))
    ∧ WF (SetWithTTL s now k v t) := by
  have habs := find?_SetWithTTL_nonpos hwf now k v ht
  have hwf' := wf_SetWithTTL hwf now k v t
  refine ⟨habs, ?_, ?_, fun q => Get_eq_of_none q habs, hwf'⟩
  · intro hmem
    have := (hwf'.2.2.1 k).mp hmem
    rw [habs] at this
    simp at this
  · have hmwf1 := mapwf_setItem hmwf now k v (some t)
    unfold SetWithTTL
    dsimp only
    rw [if_neg (by omega : ¬ 0 < t)]
    exact find?_map_removeExpirationEntry_self hmwf1 k

/-- C4 witness: the amended statement applied to a fresh cache with TTL -1. -/
theorem c4_nonpositive_ttl_absent_witness :
    (-1 : Int) ≤ 0
    ∧ assocFind? (SetWithTTL fresh0 0 9 (some 5) (-1)).items 9 = none :=
  ⟨by decide,
   (c4_nonpositive_ttl_absent (wf_New (some ⟨none, none⟩) natCalc 0)
     (mapwf_New (some ⟨none, none⟩) natCalc 0) 0 9 (some 5) (by decide)).1⟩

/-- One `Set` into a fresh cache configured with `maxItems = 0`. -/
def c5state : Cache Nat Nat := Set (New (some ⟨none, some 0⟩) natCalc 0) 0 0 (some 1)

/-- C5 counterexample: with `maxItems = N = 0` (a valid, non-negative
configuration), inserting N+1 = 1 distinct key leaves `Len() = 1 > N` and
the earliest-inserted key still present, contradicting the claim for that
`N`. -/
theorem c5_counterexample :
    ¬ ((Len c5state : Int) ≤ 0 ∧ (Get c5state 0 0).2 = false) := by
  decide

/-- C10: `Set` and `SetWithTTL` accept a nil value pointer: the entry is
stored with its size computed from the zero value of the value type
(`calcKV` applied to `vzero`), and a later `Get` returns `(nil, true)` —
found is `true` though the returned pointer is nil, so a stored nil is
indistinguishable from absence by the pointer alone. -/
theorem c10_nil_value (s : Cache K V) (now : Int) (k : K) :
    assocFind? (Set s now k none).items k
        = some ⟨none, none, now, s.calcKV k s.vzero⟩
    ∧ (∀ q : Int, Get (Set s now k none) q k = (none, true))
    ∧ ∀ t : Int, 0 < t →
        assocFind? (SetWithTTL s now k none t).items k
          = some ⟨none, some t, now, s.calcKV k s.vzero⟩
        ∧ ∀ q : Int, q - now < t → Get (SetWithTTL s now k none t) q k = (none, true) := by
  have h1 := find?_Set_self s now k none
  refine ⟨h1, ?_, ?_⟩
  · intro q
    rw [Get_eq_of_some q h1]
    rw [if_pos (by simp [isItemValid])]
  · intro t ht
    have h2 := find?_SetWithTTL_self s now k none ht
    refine ⟨h2, ?_⟩
    intro q hq
    rw [Get_eq_of_some q h2]
    have hvalid : isItemValid (⟨none, some t, now, itemSizeOf s k none⟩ : CacheItem V) q
        = true := by
      simp only [isItemValid]
      exact decide_eq_true hq
    rw [if_pos hvalid]

/-- C10 witness: storing a nil value under key 4 in a fresh cache yields
`Get = (nil, true)`. -/
theorem c10_nil_value_witness :
    Get (Set fresh0 0 4 none) 0 4 = (none, true)
    ∧ (0 : Int) < 10
    ∧ Get (SetWithTTL fresh0 0 4 none 10) 3 4 = (none, true) :=
  ⟨(c10_nil_value fresh0 0 4).2.1 0, by decide,
   ((c10_nil_value fresh0 0 4).2.2 10 (by decide)).2 3 (by decide)⟩

/-! ### The sweep never removes an entry that is still valid at sweep time -/

theorem find?_cleanupLoop_valid (fuel : Nat) {s : Cache K V} {k : K}
    {it : CacheItem V} (now : Int) (hf : assocFind? s.items k = some it)
    (hv : isItemValid it now = true) :
    assocFind? (cleanupLoop fuel s now).items k = some it := by
  induction fuel generalizing s with
  | zero => exact hf
  | succ f ih =>
    rw [cleanupLoop]
    cases hq : s.expirationQueue with
    | nil => exact hf
    | cons e rest =>
      dsimp only
      by_cases ht : now < e.expireTime
      · rw [if_pos ht]
        exact hf
      · rw [if_neg ht]
        by_cases hek : e.key = k
        · subst hek
          simp only [hf]
          rw [if_pos hv]
          exact ih hf
        · cases hfe : assocFind? s.items e.key with
          | none =>
            simp only [hfe]
            exact ih hf
          | some it2 =>
            simp only [hfe]
            by_cases hv2 : isItemValid it2 now = true
            · rw [if_pos hv2]
              exact ih hf
            · rw [if_neg hv2]
              refine ih ?_
              rw [find?_removeItemByKey_ne (fun he => hek he.symm)]
              exact hf

/-- C7: overwriting a key with a new positive TTL fully replaces the old
expiration.  After `SetWithTTL(k, v1, t1)` at time r and `SetWithTTL(k, v1,
t2)` at a later time u, `Get(k)` returns `(v1, true)` at every instant
strictly before `u + t2` — in particular past the original expiry `r + t1`
— and a sweep pass (`cleanupExpiredItems`, the body shared by the periodic
sweeper and the manual `CleanupExpired`) run at any instant before `u + t2`
does not remove `k`: the key's binding survives unchanged and `Get` still
answers `(v1, true)`. -/
theorem c7_ttl_overwrite (s : Cache K V) (r u : Int) (k : K) (v1 : Option V)
    (t1 t2 : Int) (ht2 : 0 < t2) (s2 : Cache K V)
    (hs2 : s2 = SetWithTTL (SetWithTTL s r k v1 t1) u k v1 t2) :
    (∀ q : Int, q < u + t2 → Get s2 q k = (v1, true))
    ∧ (∀ w : Int, w < u + t2 →
        assocFind? (CleanupExpired s2 w).items k = assocFind? s2.items k
        ∧ ∀ q : Int, q < u + t2 → Get (CleanupExpired s2 w) q k = (v1, true)) := by
  subst hs2
  have hbind := find?_SetWithTTL_self (SetWithTTL s r k v1 t1) u k v1 ht2
  have hval : ∀ q : Int, q < u + t2 →
      isItemValid (⟨v1, some t2, u,
        itemSizeOf (SetWithTTL s r k v1 t1) k v1⟩ : CacheItem V) q = true := by
    intro q hq
    simp only [isItemValid]
    exact decide_eq_true (by omega)
  constructor
  · intro q hq
    rw [Get_eq_of_some q hbind, if_pos (hval q hq)]
  · intro w hw
    have hpres := find?_cleanupLoop_valid
      ((SetWithTTL (SetWithTTL s r k v1 t1) u k v1 t2).expirationQueue.length + 1)
      w hbind (hval w hw)
    refine ⟨hpres.trans hbind.symm, ?_⟩
    intro q hq
    unfold CleanupExpired cleanupExpiredItems
    rw [Get_eq_of_some q hpres, if_pos (hval q hq)]

/-- C7 witness: spec scenario 4 — 50ns TTL at t=0, overwritten at t=25 with
a 200ns TTL; at t=75 the key is alive, also after a sweep at t=75. -/
theorem c7_ttl_overwrite_witness :
    (0 : Int) < 200
    ∧ Get (SetWithTTL (SetWithTTL fresh0 0 0 (some 1) 50) 25 0 (some 1) 200) 75 0
        = (some 1, true)
    ∧ Get (CleanupExpired
        (SetWithTTL (SetWithTTL fresh0 0 0 (some 1) 50) 25 0 (some 1) 200) 75) 75 0
        = (some 1, true) :=
  ⟨by decide,
   (c7_ttl_overwrite fresh0 0 25 0 (some 1) 50 200 (by decide) _ rfl).1 75 (by decide),
   ((c7_ttl_overwrite fresh0 0 25 0 (some 1) 50 200 (by decide) _ rfl).2 75
     (by decide)).2 75 (by decide)⟩

/-! ### Characterization of a run of plain `Set` inserts on a fresh cache -/

/-- The store entry one plain `Set p.1 p.2.1 p.2.2` creates. -/
def entryOf (calcKV : K → V → Nat) (vz : V) (p : Int × K × Option V) :
    K × CacheItem V :=
  (p.2.1, ⟨p.2.2, none, p.1,
    match p.2.2 with
    | some w => calcKV p.2.1 w
    | none => calcKV p.2.1 vz⟩)

/-- The state a fresh cache reaches after plain `Set` inserts of the
distinct-keyed sequence `ps` (oldest first), with no size bound and item
bound `maxI`. -/
def freshState (maxI : Option Int) (calcKV : K → V → Nat) (vz : V)
    (ps : List (Int × K × Option V)) : Cache K V :=
  { size := none, maxItems := maxI,
    sizeBytes := (sumSizes (ps.map (entryOf calcKV vz)) : Int),
    list := ps.map (fun p => p.2.1), items := ps.map (entryOf calcKV vz),
    expirationQueue := [], expirationMap := [], nextEid := 0,
    calcKV := calcKV, vzero := vz }

/-- Folding a sequence of plain `Set` calls. -/
def runSets (s : Cache K V) (ps : List (Int × K × Option V)) : Cache K V :=
  ps.foldl (fun t p => Set t p.1 p.2.1 p.2.2) s

theorem find?_freshItems_of_not_mem (calcKV : K → V → Nat) (vz : V)
    {ps : List (Int × K × Option V)} {k : K}
    (h : k ∉ ps.map (fun p => p.2.1)) :
    assocFind? (ps.map (entryOf calcKV vz)) k = none := by
  induction ps with
  | nil => rfl
  | cons p rest ih =>
    simp only [List.map_cons, List.mem_cons, not_or] at h
    have hph : ¬ p.2.1 = k := fun hh => h.1 hh.symm
    simp only [List.map_cons, assocFind?, entryOf, hph, if_false]
    exact ih h.2

theorem find?_freshItems_of_mem (calcKV : K → V → Nat) (vz : V)
    {ps : List (Int × K × Option V)}
    (hnd : (ps.map (fun p => p.2.1)).Nodup)
    {p : Int × K × Option V} (hp : p ∈ ps) :
    assocFind? (ps.map (entryOf calcKV vz)) p.2.1 = some (entryOf calcKV vz p).2 := by
  induction ps with
  | nil => simp at hp
  | cons q rest ih =>
    have h2 : q.2.1 ∉ rest.map (fun p => p.2.1) ∧ (rest.map (fun p => p.2.1)).Nodup :=
      List.nodup_cons.mp (by simpa using hnd)
    rcases List.mem_cons.mp hp with hh | hh
    · subst hh
      simp [assocFind?, entryOf]
    · have hne : ¬ q.2.1 = p.2.1 := by
        intro he
        apply h2.1
        rw [he]
        exact List.mem_map.mpr ⟨p, hh, rfl⟩
      simp only [List.map_cons, assocFind?, entryOf, hne, if_false]
      exact ih h2.2 hh

theorem overForAdd_freshState_none (calcKV : K → V → Nat) (vz : V)
    (ps : List (Int × K × Option V)) (n : Nat) :
    overForAdd (freshState (K := K) (V := V) none calcKV vz ps) n = false := by
  simp [overForAdd, freshState]

theorem overForAdd_freshState_below {N : Int} (calcKV : K → V → Nat) (vz : V)
    {ps : List (Int × K × Option V)} (h : (ps.length : Int) < N) (n : Nat) :
    overForAdd (freshState (K := K) (V := V) (some N) calcKV vz ps) n = false := by
  have hn : ¬ (N ≤ (((ps.map (entryOf calcKV vz)).length : Int))) := by
    simp only [List.length_map]
    omega
  simp only [overForAdd, freshState, hn]
  simp

theorem overForAdd_freshState_full {N : Int} (calcKV : K → V → Nat) (vz : V)
    {ps : List (Int × K × Option V)} (h : N ≤ (ps.length : Int)) (n : Nat) :
    overForAdd (freshState (K := K) (V := V) (some N) calcKV vz ps) n = true := by
  have hn : N ≤ (((ps.map (entryOf calcKV vz)).length : Int)) := by
    simp only [List.length_map]
    omega
  simp only [overForAdd, freshState, hn]
  simp

theorem removeExpirationEntry_of_none {s : Cache K V} {k : K}
    (h : assocFind? s.expirationMap k = none) : removeExpirationEntry s k = s := by
  simp [removeExpirationEntry, h]

theorem removeOldestItem_freshState (maxI : Option Int) (calcKV : K → V → Nat)
    (vz : V) (q : Int × K × Option V) (qs : List (Int × K × Option V))
    (hnd : ((q :: qs).map (fun p => p.2.1)).Nodup) :
    removeOldestItem (freshState (K := K) (V := V) maxI calcKV vz (q :: qs))
      = freshState maxI calcKV vz qs := by
  have h2 : q.2.1 ∉ qs.map (fun p => p.2.1) ∧ (qs.map (fun p => p.2.1)).Nodup :=
    List.nodup_cons.mp (by simpa using hnd)
  have hfind : assocFind?
      ((freshState (K := K) (V := V) maxI calcKV vz (q :: qs)).items) q.2.1
      = some (entryOf calcKV vz q).2 := by
    simp [freshState, assocFind?, entryOf]
  have hl : (freshState (K := K) (V := V) maxI calcKV vz (q :: qs)).list
      = q.2.1 :: qs.map (fun p => p.2.1) := by
    simp [freshState, entryOf]
  rw [removeOldestItem_eq hl h2.1 hfind]
  simp only [removeItemByKey, hfind, freshState, List.map_cons, removeExpirationEntry,
    assocFind?, assocErase, eq_self_iff_true, if_true, Cache.mk.injEq,
    listErase_cons_self, and_true, true_and]
  have hsum : sumSizes (entryOf calcKV vz q :: qs.map (entryOf calcKV vz))
      = (match q.2.2 with
         | some w => calcKV q.2.1 w
         | none => calcKV q.2.1 vz) + sumSizes (qs.map (entryOf calcKV vz)) := by
    simp [sumSizes, entryOf]
  rw [hsum]
  push_cast
  omega

theorem Set_freshState_step (maxI : Option Int) (calcKV : K → V → Nat) (vz : V)
    (ps : List (Int × K × Option V)) (p : Int × K × Option V)
    (hok : match maxI with
           | none => True
           | some N => (ps.length : Int) < N)
    (hfresh : p.2.1 ∉ ps.map (fun r => r.2.1)) :
    Set (freshState (K := K) (V := V) maxI calcKV vz ps) p.1 p.2.1 p.2.2
      = freshState maxI calcKV vz (ps ++ [p]) := by
  have hfind : assocFind? ((freshState (K := K) (V := V) maxI calcKV vz ps).items)
      p.2.1 = none := find?_freshItems_of_not_mem calcKV vz hfresh
  have hover : ∀ n, overForAdd (freshState (K := K) (V := V) maxI calcKV vz ps) n
      = false := by
    intro n
    cases maxI with
    | none => exact overForAdd_freshState_none calcKV vz ps n
    | some N => exact overForAdd_freshState_below calcKV vz (by exact hok) n
  unfold Set setItem
  rw [hfind]
  dsimp only
  rw [evictForAdd]
  simp only [hover, Bool.false_eq_true, if_false, updateOrAddItem]
  rw [hfind]
  dsimp only
  simp only [freshState, Cache.mk.injEq, List.map_append, List.map_cons, List.map_nil,
    itemSizeOf, entryOf, eq_self_iff_true, and_true, true_and]
  rw [sumSizes_append]
  simp only [sumSizes, List.map_cons, List.map_nil, List.sum_cons, List.sum_nil]
  push_cast
  omega

theorem Set_freshState_step_evict {N : Int} (calcKV : K → V → Nat) (vz : V)
    (q : Int × K × Option V) (qs : List (Int × K × Option V)) (p : Int × K × Option V)
    (hfull : (((q :: qs).length : Int)) = N)
    (hnd : ((q :: qs).map (fun r => r.2.1)).Nodup)
    (hfresh : p.2.1 ∉ (q :: qs).map (fun r => r.2.1)) :
    Set (freshState (K := K) (V := V) (some N) calcKV vz (q :: qs)) p.1 p.2.1 p.2.2
      = freshState (some N) calcKV vz (qs ++ [p]) := by
  have hfind1 : assocFind?
      ((freshState (K := K) (V := V) (some N) calcKV vz (q :: qs)).items) p.2.1
      = none := find?_freshItems_of_not_mem calcKV vz hfresh
  have hfind2 : assocFind?
      ((freshState (K := K) (V := V) (some N) calcKV vz qs).items) p.2.1 = none := by
    refine find?_freshItems_of_not_mem calcKV vz ?_
    intro hm
    exact hfresh (by simp only [List.map_cons, List.mem_cons]; exact Or.inr hm)
  have hcond1 : ∀ n, overForAdd
      (freshState (K := K) (V := V) (some N) calcKV vz (q :: qs)) n = true := by
    intro n
    exact overForAdd_freshState_full calcKV vz (le_of_eq hfull.symm) n
  have hcond2 : ∀ n, overForAdd
      (freshState (K := K) (V := V) (some N) calcKV vz qs) n = false := by
    intro n
    refine overForAdd_freshState_below calcKV vz ?_ n
    have : ((q :: qs).length : Int) = (qs.length : Int) + 1 := by
      simp only [List.length_cons]
      push_cast
      ring
    omega
  unfold Set setItem
  rw [hfind1]
  dsimp only
  rw [evictForAdd, if_pos (hcond1 _)]
  rw [show (freshState (K := K) (V := V) (some N) calcKV vz (q :: qs)).list
        = q.2.1 :: qs.map (fun r => r.2.1) from rfl]
  dsimp only
  rw [removeOldestItem_freshState (some N) calcKV vz q qs hnd]
  rw [show (freshState (K := K) (V := V) (some N) calcKV vz (q :: qs)).items.length
        = qs.length + 1 from by simp [freshState]]
  rw [evictForAdd]
  simp only [hcond2, Bool.false_eq_true, if_false, updateOrAddItem]
  rw [hfind2]
  dsimp only
  simp only [freshState, Cache.mk.injEq, List.map_append, List.map_cons, List.map_nil,
    itemSizeOf, entryOf, eq_self_iff_true, and_true, true_and]
  rw [sumSizes_append]
  simp only [sumSizes, List.map_cons, List.map_nil, List.sum_cons, List.sum_nil]
  push_cast
  omega

theorem runSets_freshState_window (N : Nat) (hN : 1 ≤ N) (calcKV : K → V → Nat)
    (vz : V) :
    ∀ (ps qs : List (Int × K × Option V)),
      ((qs ++ ps).map (fun r => r.2.1)).Nodup →
      qs.length ≤ N →
      runSets (freshState (some (N : Int)) calcKV vz qs) ps
        = freshState (some (N : Int)) calcKV vz
            ((qs ++ ps).drop (qs.length + ps.length - N)) := by
  intro ps
  induction ps with
  | nil =>
    intro qs hnd hlen
    have h0 : qs.length + ([] : List (Int × K × Option V)).length - N = 0 := by
      simp only [List.length_nil]
      omega
    rw [List.append_nil, h0, List.drop_zero]
    rfl
  | cons p ps' ih =>
    intro qs hnd hlen
    have hstep : runSets (freshState (K := K) (V := V) (some (N : Int)) calcKV vz qs)
        (p :: ps')
        = runSets (Set (freshState (some (N : Int)) calcKV vz qs) p.1 p.2.1 p.2.2)
            ps' := rfl
    rw [hstep]
    have hndm : (qs.map (fun r => r.2.1) ++ (p :: ps').map (fun r => r.2.1)).Nodup := by
      rw [← List.map_append]
      exact hnd
    have hdisj := (List.nodup_append.mp hndm).2.2
    have hfreshp : p.2.1 ∉ qs.map (fun r => r.2.1) := by
      intro hm
      exact hdisj hm (List.mem_cons_self _ _)
    by_cases hq : qs.length < N
    · have hok' : ((qs.length : Int)) < ((N : Nat) : Int) := by exact_mod_cast hq
      rw [Set_freshState_step (some (N : Int)) calcKV vz qs p hok' hfreshp]
      have hnd' : (((qs ++ [p]) ++ ps').map (fun r => r.2.1)).Nodup := by
        rw [List.append_assoc, List.singleton_append]
        exact hnd
      have hlen' : (qs ++ [p]).length ≤ N := by
        simp only [List.length_append, List.length_cons, List.length_nil]
        omega
      rw [ih (qs ++ [p]) hnd' hlen']
      have hidx : (qs ++ [p]).length + ps'.length - N
          = qs.length + (p :: ps').length - N := by
        simp only [List.length_append, List.length_cons, List.length_nil]
        omega
      rw [hidx, List.append_assoc, List.singleton_append]
    · have hqN : qs.length = N := by omega
      cases qs with
      | nil =>
        simp only [List.length_nil] at hqN
        omega
      | cons q qt =>
        have hndq : ((q :: qt).map (fun r => r.2.1)).Nodup :=
          hnd.sublist ((List.sublist_append_left (q :: qt) (p :: ps')).map
            (fun r => r.2.1))
        rw [Set_freshState_step_evict calcKV vz q qt p (by exact_mod_cast hqN)
          hndq hfreshp]
        have hnd'' : (((qt ++ [p]) ++ ps').map (fun r => r.2.1)).Nodup := by
          rw [List.append_assoc, List.singleton_append]
          have : ((q :: (qt ++ p :: ps')).map (fun r => r.2.1)).Nodup := by
            simpa using hnd
          exact (List.nodup_cons.mp (by simpa using this)).2
        have hlen'' : (qt ++ [p]).length ≤ N := by
          simp only [List.length_cons] at hqN
          simp only [List.length_append, List.length_cons, List.length_nil]
          omega
        rw [ih (qt ++ [p]) hnd'' hlen'']
        have hidx1 : (qt ++ [p]).length + ps'.length - N = ps'.length := by
          simp only [List.length_cons] at hqN
          simp only [List.length_append, List.length_cons, List.length_nil]
          omega
        have hidx2 : (q :: qt).length + (p :: ps').length - N = ps'.length + 1 := by
          simp only [List.length_cons] at hqN ⊢
          omega
        rw [hidx1, hidx2, List.append_assoc, List.singleton_append,
          List.cons_append, List.drop_succ_cons]

/-- C5 (amended to require N ≥ 1; the counterexample shows the claim fails
at the valid configuration N = 0): with `maxItems = N ≥ 1` and no size
bound, sequentially inserting N+1 distinct keys into a fresh cache leaves
`Len ≤ N`, the earliest-inserted key absent, and every other of the N+1
keys still present with its value. -/
theorem c5_maxitems_eviction (N : Nat) (hN : 1 ≤ N) (calcKV : K → V → Nat) (vz : V)
    (p0 : Int × K × Option V) (rest : List (Int × K × Option V))
    (hnd : ((p0 :: rest).map (fun r => r.2.1)).Nodup)
    (hlen : rest.length = N) (t : Cache K V)
    (ht : t = runSets (New (some ⟨none, some (N : Int)⟩) calcKV vz) (p0 :: rest)) :
    Len t ≤ N
    ∧ (∀ q : Int, Get t q p0.2.1 = (none, false))
    ∧ ∀ p ∈ rest, ∀ q : Int, Get t q p.2.1 = (p.2.2, true) := by
  subst ht
  have hnew : New (K := K) (V := V) (some ⟨none, some (N : Int)⟩) calcKV vz
      = freshState (some (N : Int)) calcKV vz [] := rfl
  rw [hnew, runSets_freshState_window N hN calcKV vz (p0 :: rest) []
    (by simpa using hnd) (by simp)]
  rw [List.nil_append]
  have hidx : ([] : List (Int × K × Option V)).length + (p0 :: rest).length - N
      = 1 := by
    simp only [List.length_nil, List.length_cons, hlen]
    omega
  rw [hidx]
  rw [show List.drop 1 (p0 :: rest) = rest from rfl]
  have hsplit : p0.2.1 ∉ rest.map (fun r => r.2.1)
      ∧ (rest.map (fun r => r.2.1)).Nodup :=
    List.nodup_cons.mp (by simpa using hnd)
  refine ⟨?_, ?_, ?_⟩
  · simp [Len, freshState, hlen]
  · intro q
    exact Get_eq_of_none q (find?_freshItems_of_not_mem calcKV vz hsplit.1)
  · intro p hp q
    have hf := find?_freshItems_of_mem calcKV vz hsplit.2 hp
    rw [Get_eq_of_some q hf,
      if_pos (show isItemValid (entryOf calcKV vz p).2 q = true from rfl)]
    rfl

/-- C5 witness: `maxItems = 2`; inserting keys 0, 1, 2 leaves key 0 absent
and keys 1, 2 present with `Len = 2`. -/
theorem c5_maxitems_eviction_witness :
    1 ≤ 2
    ∧ Len (runSets (New (some ⟨none, some (2 : Int)⟩) natCalc 0)
        [(0, 0, some 10), (0, 1, some 11), (0, 2, some 12)]) ≤ 2
    ∧ Get (runSets (New (some ⟨none, some (2 : Int)⟩) natCalc 0)
        [(0, 0, some 10), (0, 1, some 11), (0, 2, some 12)]) 9 0 = (none, false)
    ∧ Get (runSets (New (some ⟨none, some (2 : Int)⟩) natCalc 0)
        [(0, 0, some 10), (0, 1, some 11), (0, 2, some 12)]) 9 1 = (some 11, true) :=
  ⟨by decide,
   (c5_maxitems_eviction 2 (by decide) natCalc 0 (0, 0, some 10)
     [(0, 1, some 11), (0, 2, some 12)] (by decide) rfl _ rfl).1,
   (c5_maxitems_eviction 2 (by decide) natCalc 0 (0, 0, some 10)
     [(0, 1, some 11), (0, 2, some 12)] (by decide) rfl _ rfl).2.1 9,
   (c5_maxitems_eviction 2 (by decide) natCalc 0 (0, 0, some 10)
     [(0, 1, some 11), (0, 2, some 12)] (by decide) rfl _ rfl).2.2
     (0, 1, some 11) (by decide) 9⟩

/-! ### The unbounded cache never evicts -/

theorem runSets_freshState_unbounded (calcKV : K → V → Nat) (vz : V) :
    ∀ (ps qs : List (Int × K × Option V)),
      ((qs ++ ps).map (fun r => r.2.1)).Nodup →
      runSets (freshState none calcKV vz qs) ps
        = freshState none calcKV vz (qs ++ ps) := by
  intro ps
  induction ps with
  | nil =>
    intro qs hnd
    rw [List.append_nil]
    rfl
  | cons p ps' ih =>
    intro qs hnd
    have hndm : (qs.map (fun r => r.2.1) ++ (p :: ps').map (fun r => r.2.1)).Nodup := by
      rw [← List.map_append]
      exact hnd
    have hfreshp : p.2.1 ∉ qs.map (fun r => r.2.1) := by
      intro hm
      exact (List.nodup_append.mp hndm).2.2 hm (List.mem_cons_self _ _)
    have hstep : runSets (freshState (K := K) (V := V) none calcKV vz qs) (p :: ps')
        = runSets (Set (freshState none calcKV vz qs) p.1 p.2.1 p.2.2) ps' := rfl
    rw [hstep, Set_freshState_step none calcKV vz qs p trivial hfreshp]
    have hnd' : (((qs ++ [p]) ++ ps').map (fun r => r.2.1)).Nodup := by
      rw [List.append_assoc, List.singleton_append]
      exact hnd
    rw [ih (qs ++ [p]) hnd', List.append_assoc, List.singleton_append]

theorem overForAdd_unbounded {s : Cache K V} (h1 : s.size = none)
    (h2 : s.maxItems = none) (n : Nat) : overForAdd s n = false := by
  simp [overForAdd, h1, h2]

theorem overForUpdate_unbounded {s : Cache K V} (h1 : s.size = none)
    (h2 : s.maxItems = none) (o n : Nat) : overForUpdate s o n = false := by
  simp [overForUpdate, h1, h2]

theorem evictForAdd_id {s : Cache K V} {n : Nat} (h : overForAdd s n = false)
    (fuel : Nat) : evictForAdd (fuel + 1) s n = s := by
  rw [evictForAdd]
  simp [h]

theorem evictForUpdate_id {s : Cache K V} {k : K} {o n : Nat}
    (h : overForUpdate s o n = false) (fuel : Nat) :
    evictForUpdate (fuel + 1) s k o n = s := by
  rw [evictForUpdate]
  simp [h]

/-- C9: constructing the cache with a nil configuration pointer yields
exactly the state of an empty configuration — both bounds unset — and such
a cache is unbounded: any sequence of inserts of distinct keys keeps them
all (`Len` equals the number of inserts and each key is readable), and no
write ever disturbs any other key's binding, i.e. no eviction ever occurs. -/
theorem c9_nil_config (calcKV : K → V → Nat) (vz : V) :
    New (K := K) (V := V) none calcKV vz = New (some ⟨none, none⟩) calcKV vz
    ∧ (∀ ps : List (Int × K × Option V), (ps.map (fun r => r.2.1)).Nodup →
        Len (runSets (New (K := K) (V := V) none calcKV vz) ps) = ps.length
        ∧ ∀ p ∈ ps, ∀ q : Int,
            Get (runSets (New (K := K) (V := V) none calcKV vz) ps) q p.2.1
              = (p.2.2, true))
    ∧ (∀ (s : Cache K V), s.size = none → s.maxItems = none →
        ∀ (now : Int) (k : K) (v : Option V) (ttl : Option Int) (j : K), j ≠ k →
          assocFind? (setItem s now k v ttl).items j = assocFind? s.items j) := by
  refine ⟨rfl, ?_, ?_⟩
  · intro ps hnd
    have hnew : New (K := K) (V := V) none calcKV vz
        = freshState none calcKV vz [] := rfl
    rw [hnew, runSets_freshState_unbounded calcKV vz ps [] (by simpa using hnd),
      List.nil_append]
    refine ⟨by simp [Len, freshState], ?_⟩
    intro p hp q
    have hf := find?_freshItems_of_mem calcKV vz hnd hp
    rw [Get_eq_of_some q hf,
      if_pos (show isItemValid (entryOf calcKV vz p).2 q = true from rfl)]
    rfl
  · intro s h1 h2 now k v ttl j hjk
    unfold setItem
    cases hf : assocFind? s.items k with
    | none =>
      dsimp only
      rw [evictForAdd_id (overForAdd_unbounded h1 h2 _) _]
      cases ttl with
      | none =>
        dsimp only
        exact find?_updateOrAddItem_ne hjk _
      | some t =>
        dsimp only
        by_cases htp : 0 < t
        · rw [if_pos htp, items_addExpirationEntry]
          exact find?_updateOrAddItem_ne hjk _
        · rw [if_neg htp, find?_removeItemByKey_ne hjk]
          exact find?_updateOrAddItem_ne hjk _
    | some ex =>
      dsimp only
      rw [evictForUpdate_id (overForUpdate_unbounded h1 h2 _ _) _]
      cases ttl with
      | none =>
        dsimp only
        exact find?_updateOrAddItem_ne hjk _
      | some t =>
        dsimp only
        by_cases htp : 0 < t
        · rw [if_pos htp, items_addExpirationEntry]
          exact find?_updateOrAddItem_ne hjk _
        · rw [if_neg htp, find?_removeItemByKey_ne hjk]
          exact find?_updateOrAddItem_ne hjk _

/-- C9 witness: two inserts into a nil-config cache both survive, and a
third write leaves an unrelated key's (absent) binding untouched. -/
theorem c9_nil_config_witness :
    Len (runSets (New (K := Nat) (V := Nat) none natCalc 0)
      [(0, 0, some 1), (0, 1, some 2)]) = 2
    ∧ (7 : Nat) ≠ 5
    ∧ assocFind? (setItem (New (K := Nat) (V := Nat) none natCalc 0)
        0 5 (some 3) none).items 7
      = assocFind? (New (K := Nat) (V := Nat) none natCalc 0).items 7 :=
  ⟨((c9_nil_config natCalc 0).2.1 [(0, 0, some 1), (0, 1, some 2)] (by decide)).1,
   by decide,
   (c9_nil_config natCalc 0).2.2 (New none natCalc 0) rfl rfl 0 5 (some 3) none 7
     (by decide)⟩

/-! ### Helpers for the size-bound invariant -/

theorem le_of_overForAdd_false {s : Cache K V} {n : Nat} {S : Int}
    (hS : s.size = some S) (h : overForAdd s n = false) :
    s.sizeBytes + n ≤ S := by
  simp only [overForAdd, hS, Bool.or_eq_false_iff, decide_eq_false_iff_not, not_lt] at h
  exact h.1

theorem le_of_overForUpdate_false {s : Cache K V} {o n : Nat} {S : Int}
    (hS : s.size = some S) (h : overForUpdate s o n = false) :
    s.sizeBytes - o + n ≤ S := by
  simp only [overForUpdate, hS, Bool.or_eq_false_iff, decide_eq_false_iff_not,
    not_lt] at h
  exact h.1

theorem items_eq_nil_of_wf {s : Cache K V} (h : WF s) (hl : s.list = []) :
    s.items = [] := by
  cases hi : s.items with
  | nil => rfl
  | cons p rest =>
    exfalso
    have hmemk : p.1 ∈ s.items.map Prod.fst := by
      rw [hi]
      exact List.mem_map.mpr ⟨p, List.mem_cons_self _ _, rfl⟩
    have := (h.2.2.1 p.1).mpr ((assocFind?_isSome_iff _ _).mpr hmemk)
    rw [hl] at this
    simp at this

theorem items_single_of_wf {s : Cache K V} (h : WF s) {k : K} (hl : s.list = [k]) :
    ∃ it, s.items = [(k, it)] := by
  cases hi : s.items with
  | nil =>
    exfalso
    have hk : k ∈ s.list := by rw [hl]; exact List.mem_cons_self _ _
    have := (h.2.2.1 k).mp hk
    rw [hi] at this
    simp [assocFind?] at this
  | cons p rest =>
    have hmem : ∀ a, a ∈ s.items.map Prod.fst → a = k := by
      intro a ha
      have := (h.2.2.1 a).mpr ((assocFind?_isSome_iff _ _).mpr ha)
      rw [hl] at this
      simpa using this
    cases rest with
    | nil =>
      obtain ⟨a, it⟩ := p
      have hp := hmem a (by rw [hi]; exact List.mem_map.mpr ⟨(a, it), by simp, rfl⟩)
      exact ⟨it, by rw [hp]⟩
    | cons p2 rest2 =>
      exfalso
      have hp := hmem p.1 (by rw [hi]; exact List.mem_map.mpr ⟨p, by simp, rfl⟩)
      have hp2 := hmem p2.1 (by rw [hi]; exact List.mem_map.mpr ⟨p2, by simp, rfl⟩)
      have hnd : (s.items.map Prod.fst).Nodup := h.2.1
      rw [hi] at hnd
      have : p.1 ∉ (p2 :: rest2).map Prod.fst := (List.nodup_cons.mp (by simpa using hnd)).1
      exact this (by rw [hp, ← hp2]; exact List.mem_map.mpr ⟨p2, by simp, rfl⟩)

theorem find?_evictForUpdate_absent {j : K} (fuel : Nat) (s : Cache K V) (k : K)
    (o n : Nat) (h : assocFind? s.items j = none) :
    assocFind? (evictForUpdate fuel s k o n).items j = none := by
  induction fuel generalizing s with
  | zero => exact h
  | succ f ih =>
    rw [evictForUpdate]
    by_cases ho : overForUpdate s o n = true
    · rw [if_pos ho]
      by_cases hlen : s.list.length ≤ 1
      · rw [if_pos hlen]
        exact h
      · rw [if_neg hlen]
        cases hl : s.list with
        | nil => exact ih _ (find?_removeOldestItem_absent h)
        | cons k0 t =>
          cases t with
          | nil => exact ih _ (find?_removeOldestItem_absent h)
          | cons k1 t2 =>
            dsimp only
            by_cases hk0 : k0 = k
            · rw [if_pos hk0]
              exact ih _ (find?_removeItemByKey_absent k1 h)
            · rw [if_neg hk0]
              exact ih _ (find?_removeOldestItem_absent h)
    · rw [if_neg ho]
      exact h

theorem length_items_evictForUpdate_le (fuel : Nat) {s : Cache K V} (hwf : WF s)
    (k : K) (o n : Nat) :
    (evictForUpdate fuel s k o n).items.length ≤ s.items.length := by
  induction fuel generalizing s with
  | zero => exact le_refl _
  | succ f ih =>
    rw [evictForUpdate]
    by_cases ho : overForUpdate s o n = true
    · rw [if_pos ho]
      by_cases hlen : s.list.length ≤ 1
      · rw [if_pos hlen]
      · rw [if_neg hlen]
        cases hl : s.list with
        | nil => rw [hl] at hlen; simp at hlen
        | cons k0 t =>
          cases t with
          | nil => rw [hl] at hlen; simp at hlen
          | cons k1 t2 =>
            dsimp only
            by_cases hk0 : k0 = k
            · rw [if_pos hk0]
              have hm : k1 ∈ s.list := by rw [hl]; simp
              have := length_items_removeItemByKey_of_mem hwf hm
              have h2 := ih (wf_removeItemByKey hwf k1)
              omega
            · rw [if_neg hk0]
              have hnodup : (k0 :: k1 :: t2).Nodup := hl ▸ hwf.1
              obtain ⟨it0, hit0⟩ := Option.isSome_iff_exists.mp
                ((hwf.2.2.1 k0).mp (by rw [hl]; exact List.mem_cons_self _ _))
              rw [removeOldestItem_eq hl (List.nodup_cons.mp hnodup).1 hit0]
              have hm : k0 ∈ s.list := by rw [hl]; exact List.mem_cons_self _ _
              have := length_items_removeItemByKey_of_mem hwf hm
              have h2 := ih (wf_removeItemByKey hwf k0)
              omega
    · rw [if_neg ho]

theorem updateOrAddItem_of_none {s : Cache K V} {k : K}
    (h : assocFind? s.items k = none) (it : CacheItem V) :
    updateOrAddItem s k it
      = { s with items := s.items ++ [(k, it)], list := s.list ++ [k] } := by
  simp [updateOrAddItem, h]

theorem updateOrAddItem_of_some {s : Cache K V} {k : K} {b : CacheItem V}
    (h : assocFind? s.items k = some b) (it : CacheItem V) :
    updateOrAddItem s k it
      = { s with items := assocReplace s.items k it,
                 list := listErase s.list k ++ [k] } := by
  simp [updateOrAddItem, h]

/-- The size-bound disjunction `setItem` re-establishes: either the tracked
size respects the configured bound, or the written key is the single
remaining entry. -/
theorem inv6_setItem {S : Int} {s : Cache K V} (hwf : WF s) (hS : s.size = some S)
    (hS0 : 0 ≤ S) (now : Int) (k : K) (v : Option V) (ttl : Option Int) :
    (setItem s now k v ttl).sizeBytes ≤ S
    ∨ ∃ it, (setItem s now k v ttl).items = [(k, it)] := by
  have hn0 : (0 : Int) ≤ (itemSizeOf s k v : Int) := Int.ofNat_nonneg _
  unfold setItem
  cases hf : assocFind? s.items k with
  | none =>
    dsimp only
    have hwf1 : WF (evictForAdd (s.items.length + 1) s (itemSizeOf s k v)) :=
      wf_evictForAdd _ hwf _
    have hS1 : (evictForAdd (s.items.length + 1) s (itemSizeOf s k v)).size = some S :=
      (sameCfg_evictForAdd _ s _).1.trans hS
    have hnone : assocFind?
        (evictForAdd (s.items.length + 1) s (itemSizeOf s k v)).items k = none :=
      find?_evictForAdd_absent _ _ _ hf
    have hexit := evictForAdd_exit hwf (itemSizeOf s k v) (le_refl _)
    rw [updateOrAddItem_of_none (s := { evictForAdd (s.items.length + 1) s
      (itemSizeOf s k v) with sizeBytes := (evictForAdd (s.items.length + 1) s
      (itemSizeOf s k v)).sizeBytes + (itemSizeOf s k v : Int) }) hnone
      ⟨v, ttl, now, itemSizeOf s k v⟩]
    have hselfA : assocFind?
        ((evictForAdd (s.items.length + 1) s (itemSizeOf s k v)).items
          ++ [(k, (⟨v, ttl, now, itemSizeOf s k v⟩ : CacheItem V))]) k
        = some ⟨v, ttl, now, itemSizeOf s k v⟩ := by
      rw [assocFind?_append_none hnone, assocFind?_singleton_self]
    rcases hexit with hov | hnil
    · have hle := le_of_overForAdd_false hS1 hov
      cases ttl with
      | none => exact Or.inl hle
      | some t =>
        dsimp only
        by_cases htp : 0 < t
        · rw [if_pos htp]
          exact Or.inl hle
        · rw [if_neg htp]
          refine Or.inl ?_
          rw [sizeBytes_removeItemByKey_of_some hselfA]
          dsimp only
          omega
    · have hitems : (evictForAdd (s.items.length + 1) s (itemSizeOf s k v)).items
          = [] := items_eq_nil_of_wf hwf1 hnil
      have hzero : (evictForAdd (s.items.length + 1) s (itemSizeOf s k v)).sizeBytes
          = 0 := by
        rw [hwf1.2.2.2, hitems]
        rfl
      cases ttl with
      | none =>
        refine Or.inr ⟨⟨v, none, now, itemSizeOf s k v⟩, ?_⟩
        rw [show (({ evictForAdd (s.items.length + 1) s (itemSizeOf s k v) with
              sizeBytes := (evictForAdd (s.items.length + 1) s
                (itemSizeOf s k v)).sizeBytes + (itemSizeOf s k v : Int),
              items := (evictForAdd (s.items.length + 1) s (itemSizeOf s k v)).items
                ++ [(k, (⟨v, none, now, itemSizeOf s k v⟩ : CacheItem V))],
              list := (evictForAdd (s.items.length + 1) s (itemSizeOf s k v)).list
                ++ [k] } : Cache K V)).items
            = (evictForAdd (s.items.length + 1) s (itemSizeOf s k v)).items
              ++ [(k, (⟨v, none, now, itemSizeOf s k v⟩ : CacheItem V))] from rfl]
        rw [hitems]
        rfl
      | some t =>
        dsimp only
        by_cases htp : 0 < t
        · rw [if_pos htp]
          refine Or.inr ⟨⟨v, some t, now, itemSizeOf s k v⟩, ?_⟩
          rw [items_addExpirationEntry]
          dsimp only
          rw [hitems]
          rfl
        · rw [if_neg htp]
          refine Or.inl ?_
          rw [sizeBytes_removeItemByKey_of_some hselfA]
          dsimp only
          omega
  | some ex =>
    dsimp only
    have hwf1 : WF (evictForUpdate (s.items.length + 1) s k ex.size
        (itemSizeOf s k v)) := (wf_evictForUpdate _ hwf k _ _).1
    have hS1 : (evictForUpdate (s.items.length + 1) s k ex.size
        (itemSizeOf s k v)).size = some S :=
      (sameCfg_evictForUpdate _ s k _ _).1.trans hS
    have hex : assocFind? (evictForUpdate (s.items.length + 1) s k ex.size
        (itemSizeOf s k v)).items k = some ex :=
      ((wf_evictForUpdate _ hwf k _ _).2).trans hf
    have hexit := evictForUpdate_exit hwf k ex.size (itemSizeOf s k v) (le_refl _)
    rw [updateOrAddItem_of_some (s := { evictForUpdate (s.items.length + 1) s k
      ex.size (itemSizeOf s k v) with sizeBytes := (evictForUpdate
      (s.items.length + 1) s k ex.size (itemSizeOf s k v)).sizeBytes - ex.size
      + (itemSizeOf s k v : Int) }) hex ⟨v, ttl, now, itemSizeOf s k v⟩]
    have hselfU : assocFind? (assocReplace (evictForUpdate (s.items.length + 1) s k
        ex.size (itemSizeOf s k v)).items k ⟨v, ttl, now, itemSizeOf s k v⟩) k
        = some ⟨v, ttl, now, itemSizeOf s k v⟩ :=
      assocFind?_replace_self hex _
    rcases hexit with hov | hlen
    · have hle := le_of_overForUpdate_false hS1 hov
      cases ttl with
      | none => exact Or.inl hle
      | some t =>
        dsimp only
        by_cases htp : 0 < t
        · rw [if_pos htp]
          exact Or.inl hle
        · rw [if_neg htp]
          refine Or.inl ?_
          rw [sizeBytes_removeItemByKey_of_some hselfU]
          dsimp only
          omega
    · have hkmem : k ∈ (evictForUpdate (s.items.length + 1) s k ex.size
          (itemSizeOf s k v)).list :=
        (hwf1.2.2.1 k).mpr (by rw [hex]; rfl)
      have hsingle : (evictForUpdate (s.items.length + 1) s k ex.size
          (itemSizeOf s k v)).list = [k] := by
        cases hll : (evictForUpdate (s.items.length + 1) s k ex.size
            (itemSizeOf s k v)).list with
        | nil => rw [hll] at hkmem; simp at hkmem
        | cons a t =>
          cases t with
          | nil =>
            rw [hll] at hkmem
            have : k = a := by simpa using hkmem
            rw [this]
          | cons b t2 => rw [hll] at hlen; simp at hlen
      obtain ⟨ex', hex'⟩ := items_single_of_wf hwf1 hsingle
      have hexex : ex' = ex := by
        have := hex
        rw [hex', assocFind?_singleton_self] at this
        exact (Option.some.injEq _ _).mp this
      subst hexex
      have hzero : (evictForUpdate (s.items.length + 1) s k ex'.size
          (itemSizeOf s k v)).sizeBytes = (ex'.size : Int) := by
        rw [hwf1.2.2.2, hex']
        simp [sumSizes]
      have hrepl : assocReplace (evictForUpdate (s.items.length + 1) s k ex'.size
          (itemSizeOf s k v)).items k (⟨v, ttl, now, itemSizeOf s k v⟩ : CacheItem V)
          = [(k, ⟨v, ttl, now, itemSizeOf s k v⟩)] := by
        rw [hex']
        simp [assocReplace]
      cases ttl with
      | none => exact Or.inr ⟨⟨v, none, now, itemSizeOf s k v⟩, hrepl⟩
      | some t =>
        dsimp only
        by_cases htp : 0 < t
        · rw [if_pos htp]
          refine Or.inr ⟨⟨v, some t, now, itemSizeOf s k v⟩, ?_⟩
          rw [items_addExpirationEntry]
          exact hrepl
        · rw [if_neg htp]
          refine Or.inl ?_
          rw [sizeBytes_removeItemByKey_of_some hselfU]
          dsimp only
          rw [hzero]
          omega

/-- The key of the most recent `Set`/`SetWithTTL` call, if any. -/
def lwStep : Option K → Op K V → Option K
  | _, .set _ k _ => some k
  | _, .setWithTTL _ k _ _ => some k
  | lw, _ => lw

/-- The key of the most recent write in a whole call sequence. -/
def lastWritten : Option K → List (Op K V) → Option K
  | lw, [] => lw
  | lw, op :: rest => lastWritten (lwStep lw op) rest

/-- The C6 invariant: the tracked size respects the configured bound, or
exactly one entry remains and it is the most recently written key. -/
def Inv6 (S : Int) (s : Cache K V) (lw : Option K) : Prop :=
  s.sizeBytes ≤ S ∨ ∃ k it, s.items = [(k, it)] ∧ lw = some k

theorem inv6_removeItemByKey {S : Int} {s : Cache K V} {lw : Option K}
    (hwf : WF s) (hS0 : 0 ≤ S) (hinv : Inv6 S s lw) (j : K) :
    Inv6 S (removeItemByKey s j) lw := by
  rcases hinv with h | ⟨k0, it0, hitems, hlw⟩
  · exact Or.inl ((sizeBytes_removeItemByKey_le s j).trans h)
  · by_cases hjk : j = k0
    · subst hjk
      have hfind : assocFind? s.items j = some it0 := by
        rw [hitems, assocFind?_singleton_self]
      refine Or.inl ?_
      rw [sizeBytes_removeItemByKey_of_some hfind, hwf.2.2.2, hitems]
      have : sumSizes [(j, it0)] = it0.size := by simp [sumSizes]
      rw [this]
      omega
    · have hfind : assocFind? s.items j = none := by
        rw [hitems]
        exact assocFind?_singleton_ne hjk _
      rw [removeItemByKey_of_none hfind]
      exact Or.inr ⟨k0, it0, hitems, hlw⟩

theorem inv6_cleanupLoop (fuel : Nat) {S : Int} {s : Cache K V} {lw : Option K}
    (hwf : WF s) (hS0 : 0 ≤ S) (hinv : Inv6 S s lw) (now : Int) :
    Inv6 S (cleanupLoop fuel s now) lw := by
  induction fuel generalizing s with
  | zero => exact hinv
  | succ f ih =>
    rw [cleanupLoop]
    cases hq : s.expirationQueue with
    | nil => exact hinv
    | cons e rest =>
      dsimp only
      by_cases ht : now < e.expireTime
      · rw [if_pos ht]
        exact hinv
      · rw [if_neg ht]
        have h1 : WF { s with
            expirationQueue := heapPopRoot (e :: rest)
            expirationMap := assocErase s.expirationMap e.key } := hwf
        have hinv1 : Inv6 S { s with
            expirationQueue := heapPopRoot (e :: rest)
            expirationMap := assocErase s.expirationMap e.key } lw := hinv
        cases hfe : assocFind? s.items e.key with
        | none =>
          simp only [hfe]
          exact ih h1 hinv1
        | some it =>
          simp only [hfe]
          by_cases hv : isItemValid it now = true
          · rw [if_pos hv]
            exact ih h1 hinv1
          · rw [if_neg hv]
            exact ih (wf_removeItemByKey h1 e.key)
              (inv6_removeItemByKey h1 hS0 hinv1 e.key)

theorem inv6_applyOp {S : Int} {s : Cache K V} {lw : Option K} (hwf : WF s)
    (hS : s.size = some S) (hS0 : 0 ≤ S) (hinv : Inv6 S s lw) (op : Op K V) :
    Inv6 S (applyOp s op) (lwStep lw op) := by
  cases op with
  | set now k v =>
    rcases inv6_setItem hwf hS hS0 now k v none with h | ⟨it, h⟩
    · exact Or.inl h
    · exact Or.inr ⟨k, it, h, rfl⟩
  | setWithTTL now k v t =>
    have hbase := inv6_setItem hwf hS hS0 now k v (some t)
    show Inv6 S (SetWithTTL s now k v t) (some k)
    unfold SetWithTTL
    by_cases htp : 0 < t
    · rw [if_pos htp]
      rcases hbase with h | ⟨it, h⟩
      · refine Or.inl ?_
        rw [sizeBytes_addExpirationEntry, sizeBytes_removeExpirationEntry]
        exact h
      · refine Or.inr ⟨k, it, ?_, rfl⟩
        rw [items_addExpirationEntry, items_removeExpirationEntry]
        exact h
    · rw [if_neg htp]
      rcases hbase with h | ⟨it, h⟩
      · refine Or.inl ?_
        rw [sizeBytes_removeExpirationEntry]
        exact h
      · refine Or.inr ⟨k, it, ?_, rfl⟩
        rw [items_removeExpirationEntry]
        exact h
  | del j => exact inv6_removeItemByKey hwf hS0 hinv j
  | get now k => exact hinv
  | clear => exact Or.inl hS0
  | cleanup now => exact inv6_cleanupLoop _ hwf hS0 hinv now

theorem inv6_runOps {S : Int} (hS0 : 0 ≤ S) :
    ∀ (ops : List (Op K V)) (s : Cache K V) (lw : Option K), WF s →
      s.size = some S → Inv6 S s lw →
      Inv6 S (runOps s ops) (lastWritten lw ops) := by
  intro ops
  induction ops with
  | nil =>
    intro s lw _ _ h
    exact h
  | cons op rest ih =>
    intro s lw hwf hS hinv
    exact ih (applyOp s op) (lwStep lw op) (wf_applyOp hwf op)
      ((sameCfg_applyOp s op).1.trans hS) (inv6_applyOp hwf hS hS0 hinv op)

/-! ### The eviction loop's victim choice when the oldest is the written key -/

theorem evictForUpdate_first_victim {s : Cache K V} (hwf : WF s) {k j : K}
    {rest : List K} (hl : s.list = k :: j :: rest) (o n fuel : Nat)
    (hov : overForUpdate s o n = true) :
    assocFind? (evictForUpdate (fuel + 1) s k o n).items j = none := by
  rw [evictForUpdate, if_pos hov]
  have h2 : ¬ s.list.length ≤ 1 := by rw [hl]; simp
  rw [if_neg h2, hl]
  dsimp only
  rw [if_pos rfl]
  refine find?_evictForUpdate_absent _ _ _ _ _ ?_
  have hjmem : j ∈ s.list := by rw [hl]; simp
  obtain ⟨itj, hitj⟩ := Option.isSome_iff_exists.mp ((hwf.2.2.1 j).mp hjmem)
  rw [items_removeItemByKey_of_some hitj]
  exact assocFind?_erase_self_of_nodup hwf.2.1 j

theorem items_length_Set_of_some {s : Cache K V} (hwf : WF s) {k : K}
    {ex : CacheItem V} (hex : assocFind? s.items k = some ex) (now : Int)
    (v : Option V) :
    (Set s now k v).items.length
      = (evictForUpdate (s.items.length + 1) s k ex.size
          (itemSizeOf s k v)).items.length := by
  unfold Set setItem
  rw [hex]
  dsimp only
  have hexr1 : assocFind? (evictForUpdate (s.items.length + 1) s k ex.size
      (itemSizeOf s k v)).items k = some ex :=
    ((wf_evictForUpdate _ hwf k _ _).2).trans hex
  rw [updateOrAddItem_of_some (s := { evictForUpdate (s.items.length + 1) s k
    ex.size (itemSizeOf s k v) with sizeBytes := (evictForUpdate
    (s.items.length + 1) s k ex.size (itemSizeOf s k v)).sizeBytes - ex.size
    + (itemSizeOf s k v : Int) }) hexr1 ⟨v, none, now, itemSizeOf s k v⟩]
  exact length_assocReplace _ _ _

theorem find?_Set_ne_of_some {s : Cache K V} (hwf : WF s) {k j : K}
    {ex : CacheItem V} (hex : assocFind? s.items k = some ex) (hkj : j ≠ k)
    (now : Int) (v : Option V) :
    assocFind? (Set s now k v).items j
      = assocFind? (evictForUpdate (s.items.length + 1) s k ex.size
          (itemSizeOf s k v)).items j := by
  unfold Set setItem
  rw [hex]
  dsimp only
  have hexr1 : assocFind? (evictForUpdate (s.items.length + 1) s k ex.size
      (itemSizeOf s k v)).items k = some ex :=
    ((wf_evictForUpdate _ hwf k _ _).2).trans hex
  rw [updateOrAddItem_of_some (s := { evictForUpdate (s.items.length + 1) s k
    ex.size (itemSizeOf s k v) with sizeBytes := (evictForUpdate
    (s.items.length + 1) s k ex.size (itemSizeOf s k v)).sizeBytes - ex.size
    + (itemSizeOf s k v : Int) }) hexr1 ⟨v, none, now, itemSizeOf s k v⟩]
  exact assocFind?_replace_ne hkj _

theorem second_oldest_victim {s : Cache K V} (hwf : WF s) {k j : K}
    {rest : List K} (hl : s.list = k :: j :: rest) (now : Int) (v : Option V)
    (hlen : Len (Set s now k v) < Len s) :
    assocFind? (Set s now k v).items j = none := by
  have hnodup : (k :: j :: rest).Nodup := hl ▸ hwf.1
  have hkj : j ≠ k := by
    intro he
    exact (List.nodup_cons.mp hnodup).1 (by rw [← he]; exact List.mem_cons_self j rest)
  obtain ⟨ex, hex⟩ := Option.isSome_iff_exists.mp
    ((hwf.2.2.1 k).mp (by rw [hl]; exact List.mem_cons_self _ _))
  by_cases hov : overForUpdate s ex.size (itemSizeOf s k v) = true
  · rw [find?_Set_ne_of_some hwf hex hkj now v]
    exact evictForUpdate_first_victim hwf hl ex.size (itemSizeOf s k v)
      s.items.length hov
  · exfalso
    have h1 := items_length_Set_of_some hwf hex now v
    rw [evictForUpdate_id (by simpa using hov) s.items.length] at h1
    simp only [Len] at hlen
    omega

/-- C6: for a cache configured with maximum cumulative size S ≥ 0 (spec §7:
valid bounds are non-negative) and no item bound, after any completed
sequence of public calls — in particular any `Set`/`SetWithTTL`/`Delete`
sequence — the tracked cumulative size is at most S, except when exactly
one entry remains and it is the most recently written key; moreover the
update-path eviction loop never removes the binding of the key being
written, a completed write of a key always leaves that key present, and
when the oldest entry is the key being updated and the write evicted
anything, the second-oldest entry is the one evicted. -/
theorem c6_size_bound (S : Int) (hS0 : 0 ≤ S) (calcKV : K → V → Nat) (vz : V)
    (ops : List (Op K V)) (t : Cache K V)
    (ht : t = runOps (New (some ⟨some S, none⟩) calcKV vz) ops) :
    (t.sizeBytes ≤ S
      ∨ ∃ k it, t.items = [(k, it)] ∧ lastWritten none ops = some k)
    ∧ (∀ (s' : Cache K V), WF s' → ∀ (fuel : Nat) (k : K) (o n : Nat),
        assocFind? (evictForUpdate fuel s' k o n).items k = assocFind? s'.items k)
    ∧ (∀ (s' : Cache K V) (now : Int) (k : K) (v : Option V),
        (assocFind? (Set s' now k v).items k).isSome
        ∧ ∀ u : Int, 0 < u → (assocFind? (SetWithTTL s' now k v u).items k).isSome)
    ∧ (∀ (s' : Cache K V), WF s' → ∀ (k j : K) (rest : List K),
        s'.list = k :: j :: rest → ∀ (now : Int) (v : Option V),
          Len (Set s' now k v) < Len s' →
          assocFind? (Set s' now k v).items j = none) := by
  refine ⟨?_, ?_, ?_, ?_⟩
  · subst ht
    exact inv6_runOps hS0 ops (New (some ⟨some S, none⟩) calcKV vz) none
      (wf_New _ _ _) rfl (Or.inl hS0)
  · intro s' hwf fuel k o n
    exact (wf_evictForUpdate fuel hwf k o n).2
  · intro s' now k v
    constructor
    · rw [find?_Set_self]
      rfl
    · intro u hu
      rw [find?_SetWithTTL_self s' now k v hu]
      rfl
  · intro s' hwf k j rest hl now v hlen
    exact second_oldest_victim hwf hl now v hlen

/-- C6 witness: bound 100, one write; the theorem instance at a concrete
run. -/
theorem c6_size_bound_witness :
    (0 : Int) ≤ 100
    ∧ ((runOps (New (some ⟨some 100, none⟩) natCalc 0)
          [Op.set 0 0 (some 5)]).sizeBytes ≤ 100
        ∨ ∃ k it, (runOps (New (some ⟨some 100, none⟩) natCalc 0)
            [Op.set 0 0 (some 5)]).items = [(k, it)]
          ∧ lastWritten none [Op.set 0 0 (some 5)] = some k) :=
  ⟨by decide,
   (c6_size_bound 100 (by decide) natCalc 0 [Op.set 0 0 (some 5)] _ rfl).1⟩

end GoCache
